import Mathlib

/-!
Shallow embedding of the phishing-detection accounting core
(`database_service.py`): the three relations `flagged_emails`,
`analysis_results` and `phrase_statistics`, the ingestion / deletion /
cleanup operations, and the phrase-statistics delta ledger.

Conventions of the embedding:
* SQL tables are Lean lists of row structures; `INSERT` appends,
  `UPDATE` maps in place, `DELETE` filters; `SERIAL` primary keys are
  modelled by `next_email_id` / `next_result_id` counters.
* `CURRENT_TIMESTAMP` / `NOW()` is passed in as an explicit `now : Nat`
  parameter; the retention cutoff `NOW() - make_interval(days)` is
  passed as an explicit `cutoff` value.
* Python string slicing `s[:n]` is `py_slice` (take the first `n`
  characters).
* The SHA-256 hex digest of `hashlib.sha256(content).hexdigest()` is
  embedded by the content string itself (`generate_email_hash`): the
  development only relies on the digest being a deterministic function
  of the raw content, never on its length or format.
* Counter columns of `phrase_statistics` are `Int` (SQL integers can go
  negative before the cleanup `DELETE` fires).
-/

namespace PhishDetect

/-- Python `s[:n]` character slicing. -/
def py_slice (s : String) (n : Nat) : String := ⟨s.data.take n⟩

/-- `_generate_email_hash`: SHA-256 hex digest of the content, embedded
by the content itself (deterministic function of the raw content, which
is the only property the service relies on). -/
def generate_email_hash (email_content : String) : String := email_content

/-- One entry of `analysis_results.get('suspicious_findings', [])`:
the finding dictionaries produced by the detector. -/
structure FindingInput where
  phrase : String
  segment : String
  line_number : Int
  context : String
deriving DecidableEq, Repr

/-- The `parsed_email` dictionary as consumed by
`_store_flagged_email_impl`.  `raw_lines` holds the `str(...)` rendering
of the raw-lines list (the exact string that is hashed and stored);
`date` is the already-parsed RFC-2822 date header, `none` when the
header is absent or unparsable (in which case the code falls back to
`datetime.now()`). -/
structure ParsedEmail where
  subject : String
  from_addr : String
  to_addr : String
  date : Option Nat
  raw_lines : String
deriving DecidableEq, Repr

/-- A row of the `flagged_emails` table. -/
structure EmailRow where
  id : Nat
  email_hash : String
  email_subject : String
  email_from : String
  email_to : String
  email_date : Nat
  total_suspicious_findings : Nat
  email_content : String
  flagged_at : Nat
deriving DecidableEq, Repr

/-- A row of the `analysis_results` table. -/
structure ResultRow where
  id : Nat
  flagged_email_id : Nat
  suspicious_phrase : String
  segment_type : String
  line_number : Int
  context_content : String
  created_at : Nat
deriving DecidableEq, Repr

/-- A row of the `phrase_statistics` table. -/
structure StatRow where
  suspicious_phrase : String
  total_occurrences : Int
  emails_affected : Int
  last_seen : Nat
deriving DecidableEq, Repr

/-- The database state shared by all operations. -/
structure DB where
  flagged_emails : List EmailRow
  analysis_results : List ResultRow
  phrase_statistics : List StatRow
  next_email_id : Nat
  next_result_id : Nat
deriving DecidableEq, Repr

/-- The empty, freshly initialised database. -/
def empty_db : DB := ⟨[], [], [], 1, 1⟩

/-- `SELECT COUNT(*) FROM analysis_results WHERE flagged_email_id = eid
AND suspicious_phrase = p`: occurrences of one phrase inside one email. -/
def count_in_email (rs : List ResultRow) (p : String) (eid : Nat) : Nat :=
  rs.countP (fun r => r.flagged_email_id == eid && r.suspicious_phrase == p)

/-- Total number of `analysis_results` rows carrying phrase `p`. -/
def occurrences_of (rs : List ResultRow) (p : String) : Nat :=
  rs.countP (fun r => r.suspicious_phrase == p)

/-- Number of stored emails currently owning at least one finding with
phrase `p`. -/
def emails_containing (es : List EmailRow) (rs : List ResultRow) (p : String) : Nat :=
  es.countP (fun e => decide (0 < count_in_email rs p e.id))

/-- Lookup with default 0 in an association list of per-phrase counts
(a Python `dict.get(phrase, 0)`). -/
def alookup (l : List (String × Nat)) (p : String) : Nat :=
  match l.find? (fun pc => pc.1 == p) with
  | some pc => pc.2
  | none => 0

/-- The `GROUP BY suspicious_phrase` query used before re-analysis and
before email deletion: per-phrase occurrence counts of one email. -/
def counts_by_phrase (rs : List ResultRow) (eid : Nat) : List (String × Nat) :=
  ((rs.filter (fun r => r.flagged_email_id == eid)).map
      (fun r => r.suspicious_phrase)).dedup.map
    (fun p => (p, count_in_email rs p eid))

/-- The `emails_affected` delta computed by
`_update_phrase_statistics_with_delta` from the per-email before/after
counts and the `is_new_email` flag. -/
def emails_affected_delta_of (is_new_email : Bool) (old_count new_count : Nat) : Int :=
  if is_new_email then
    if 0 < new_count then 1 else 0
  else if old_count = 0 ∧ 0 < new_count then 1
  else if 0 < old_count ∧ new_count = 0 then -1
  else 0

/-- The shared `DELETE FROM phrase_statistics WHERE suspicious_phrase =
%s AND total_occurrences <= 0 AND emails_affected <= 0` of both ledger
writers: the rows that survive it. -/
def stat_keep (phrase : String) (r : StatRow) : Bool :=
  !(r.suspicious_phrase == phrase &&
    decide (r.total_occurrences ≤ 0) && decide (r.emails_affected ≤ 0))

/-- The `INSERT ... ON CONFLICT (suspicious_phrase) DO UPDATE` of
`_update_phrase_statistics_with_delta`: on a fresh phrase, seed the row
with `(new_count, emails_affected_delta, now)`; on conflict, add the
deltas, refreshing `last_seen` only when some delta is positive. -/
def stat_upsert (st : List StatRow) (phrase : String)
    (old_count new_count : Nat) (is_new_email : Bool) (now : Nat) : List StatRow :=
  if st.any (fun r => r.suspicious_phrase == phrase) then
    st.map (fun r =>
      if r.suspicious_phrase == phrase then
        { r with
          total_occurrences := r.total_occurrences + ((new_count : Int) - (old_count : Int))
          emails_affected :=
            r.emails_affected + emails_affected_delta_of is_new_email old_count new_count
          last_seen :=
            if 0 < (new_count : Int) - (old_count : Int) ∨
                0 < emails_affected_delta_of is_new_email old_count new_count
            then now else r.last_seen }
      else r)
  else
    st ++ [⟨phrase, (new_count : Int),
      emails_affected_delta_of is_new_email old_count new_count, now⟩]

/-- `_update_phrase_statistics_with_delta`: upsert the ledger row for
`phrase` by the computed deltas, then retire the row if both counters
dropped to 0 or below and some delta was negative. -/
def update_phrase_statistics_with_delta (st : List StatRow) (phrase : String)
    (old_count new_count : Nat) (is_new_email : Bool) (now : Nat) : List StatRow :=
  if (new_count : Int) - (old_count : Int) < 0 ∨
      emails_affected_delta_of is_new_email old_count new_count < 0 then
    (stat_upsert st phrase old_count new_count is_new_email now).filter (stat_keep phrase)
  else stat_upsert st phrase old_count new_count is_new_email now

/-- `_decrement_phrase_statistics`: subtract the decrements from the
ledger row of `phrase` (never touching `last_seen`), then delete the row
when both counters are 0 or below. -/
def decrement_phrase_statistics (st : List StatRow) (phrase : String)
    (occurrence_decrement emails_affected_decrement : Nat) : List StatRow :=
  (st.map (fun r =>
    if r.suspicious_phrase == phrase then
      { r with
        total_occurrences := r.total_occurrences - (occurrence_decrement : Int)
        emails_affected := r.emails_affected - (emails_affected_decrement : Int) }
    else r)).filter (stat_keep phrase)

/-- The loop of `_store_analysis_results` that `INSERT`s one
`analysis_results` row per finding (phrase sliced to 500 characters,
segment to 100, serial ids assigned in order, `created_at = now`). -/
def insert_findings (db : DB) (flagged_email_id : Nat)
    (findings : List FindingInput) (now : Nat) : DB :=
  match findings with
  | [] => db
  | f :: rest =>
    let row : ResultRow :=
      ⟨db.next_result_id, flagged_email_id, py_slice f.phrase 500,
        py_slice f.segment 100, f.line_number, f.context, now⟩
    insert_findings
      { db with
        analysis_results := db.analysis_results ++ [row]
        next_result_id := db.next_result_id + 1 }
      flagged_email_id rest now

/-- The rows the insertion loop appends, made explicit for reasoning:
`insert_findings` appends exactly `rendered_rows eid findings next now`. -/
def rendered_rows (flagged_email_id : Nat) (findings : List FindingInput)
    (next now : Nat) : List ResultRow :=
  match findings with
  | [] => []
  | f :: rest =>
    ⟨next, flagged_email_id, py_slice f.phrase 500, py_slice f.segment 100,
      f.line_number, f.context, now⟩ :: rendered_rows flagged_email_id rest (next + 1) now

/-- The per-batch occurrence count of phrase `p` among the findings
being stored (the final value of the `new_phrase_counts` dict). -/
def new_count_of (findings : List FindingInput) (p : String) : Nat :=
  findings.countP (fun f => py_slice f.phrase 500 == p)

/-- `set(new_phrase_counts.keys()) | set(old_phrase_counts.keys())`:
every phrase appearing in either the old or the new per-email counts. -/
def all_phrases_of (findings : List FindingInput)
    (old_phrase_counts : List (String × Nat)) : List String :=
  (findings.map (fun f => py_slice f.phrase 500) ++
    old_phrase_counts.map (fun pc => pc.1)).dedup

/-- `_store_analysis_results`: insert the finding rows, then apply the
per-phrase ledger deltas for every phrase of the old or new counts
(`old_count` defaulting to 0 for phrases absent from the old counts,
`new_count` to 0 for phrases absent from the new batch). -/
def store_analysis_results (db : DB) (flagged_email_id : Nat)
    (findings : List FindingInput) (is_new_email : Bool)
    (old_phrase_counts : List (String × Nat)) (now : Nat) : DB :=
  let db1 := insert_findings db flagged_email_id findings now
  { db1 with
    phrase_statistics :=
      (all_phrases_of findings old_phrase_counts).foldl
        (fun st p =>
          update_phrase_statistics_with_delta st p
            (alookup old_phrase_counts p) (new_count_of findings p) is_new_email now)
        db1.phrase_statistics }

/-- The atomic `INSERT ... ON CONFLICT (email_hash) DO UPDATE ...
RETURNING id, (xmax = 0) as is_new_email` of
`_store_flagged_email_impl`: returns the updated table state, the row
id, and whether a fresh row was inserted. -/
def upsert_flagged_email (db : DB) (email_hash email_subject email_from email_to : String)
    (email_date total_findings : Nat) (email_content : String) (now : Nat) :
    DB × Nat × Bool :=
  match db.flagged_emails.find? (fun e => e.email_hash == email_hash) with
  | some e =>
    ({ db with
        flagged_emails := db.flagged_emails.map (fun e' =>
          if e'.email_hash == email_hash then
            { e' with total_suspicious_findings := total_findings, flagged_at := now }
          else e') },
      e.id, false)
  | none =>
    ({ db with
        flagged_emails :=
          db.flagged_emails ++
            [⟨db.next_email_id, email_hash, email_subject, email_from, email_to,
              email_date, total_findings, email_content, now⟩]
        next_email_id := db.next_email_id + 1 },
      db.next_email_id, true)

/-- `_store_flagged_email_impl`: hash the raw content, upsert the email
row (metadata sliced to the column widths), lock it (`SELECT ... FOR
UPDATE`, a no-op in this sequential embedding), then store the findings
— directly for a new email, by delete-and-reinsert with delta
accounting for a re-analysed one.  Returns the new state and the email
id. -/
def store_flagged_email_impl (db : DB) (parsed_email : ParsedEmail)
    (suspicious_findings : List FindingInput) (now : Nat) : DB × Nat :=
  let email_content := parsed_email.raw_lines
  let email_hash := generate_email_hash email_content
  let subject := py_slice parsed_email.subject 500
  let from_addr := py_slice parsed_email.from_addr 200
  let to_addr := py_slice parsed_email.to_addr 200
  let email_date := parsed_email.date.getD now
  match upsert_flagged_email db email_hash subject from_addr to_addr
      email_date suspicious_findings.length email_content now with
  | (db1, flagged_email_id, is_new_email) =>
    if is_new_email then
      (store_analysis_results db1 flagged_email_id suspicious_findings true [] now,
        flagged_email_id)
    else
      let old_phrase_counts := counts_by_phrase db1.analysis_results flagged_email_id
      let db2 := { db1 with
        analysis_results :=
          db1.analysis_results.filter (fun r => !(r.flagged_email_id == flagged_email_id)) }
      (store_analysis_results db2 flagged_email_id suspicious_findings false
        old_phrase_counts now, flagged_email_id)

/-- `_delete_flagged_email_impl`: capture the per-phrase counts, delete
the email's findings, decrement the ledger per phrase (occurrences by
the count, `emails_affected` by 1), then delete the email row and
report whether it existed. -/
def delete_flagged_email_impl (db : DB) (email_id : Nat) : DB × Bool :=
  let phrase_counts_to_remove := counts_by_phrase db.analysis_results email_id
  let db1 := { db with
    analysis_results :=
      db.analysis_results.filter (fun r => !(r.flagged_email_id == email_id)) }
  let db2 := { db1 with
    phrase_statistics :=
      phrase_counts_to_remove.foldl
        (fun st (pc : String × Nat) => decrement_phrase_statistics st pc.1 pc.2 1)
        db1.phrase_statistics }
  let existed := db2.flagged_emails.any (fun e => e.id == email_id)
  ({ db2 with
      flagged_emails := db2.flagged_emails.filter (fun e => !(e.id == email_id)) },
    existed)

/-- `_delete_analysis_result_impl`: look the finding up; when absent
return `false` without touching anything; otherwise record whether it is
the last occurrence of its phrase in its email, delete it, and decrement
the ledger by `(1, 1 if is_last else 0)`. -/
def delete_analysis_result_impl (db : DB) (result_id : Nat) : DB × Bool :=
  match db.analysis_results.find? (fun r => r.id == result_id) with
  | none => (db, false)
  | some found =>
    let phrase := found.suspicious_phrase
    let email_id := found.flagged_email_id
    let current_count := count_in_email db.analysis_results phrase email_id
    let is_last_occurrence_in_email := current_count == 1
    let deleted := db.analysis_results.any (fun r => r.id == result_id)
    let db1 := { db with
      analysis_results := db.analysis_results.filter (fun r => !(r.id == result_id)) }
    if deleted then
      ({ db1 with
          phrase_statistics :=
            decrement_phrase_statistics db1.phrase_statistics phrase 1
              (if is_last_occurrence_in_email then 1 else 0) },
        true)
    else (db1, false)

/-- Whether an `analysis_results` row belongs to an email older than the
cleanup cutoff (`flagged_email_id IN (SELECT id FROM flagged_emails
WHERE flagged_at < cutoff)`). -/
def owner_is_old (es : List EmailRow) (cutoff : Nat) (r : ResultRow) : Bool :=
  es.any (fun e => e.id == r.flagged_email_id && decide (e.flagged_at < cutoff))

/-- The pre-deletion aggregation of `_cleanup_old_data_impl`: per phrase
of the about-to-be-deleted findings, the total occurrence count and the
distinct-email count among exactly the old emails. -/
def cleanup_aggregates (es : List EmailRow) (rs : List ResultRow) (cutoff : Nat) :
    List (String × Nat × Nat) :=
  let old_results := rs.filter (owner_is_old es cutoff)
  (old_results.map (fun r => r.suspicious_phrase)).dedup.map (fun p =>
    (p, (old_results.countP (fun r => r.suspicious_phrase == p)),
      ((old_results.filter (fun r => r.suspicious_phrase == p)).map
        (fun r => r.flagged_email_id)).dedup.length))

/-- The result dictionary of `cleanup_old_data`. -/
structure CleanupResult where
  emails_deleted : Nat
  analysis_results_deleted : Nat
deriving DecidableEq, Repr

/-- `_cleanup_old_data_impl`: aggregate the per-phrase statistics of the
old emails, delete their findings, apply the aggregated decrements to
the ledger, then delete the old emails and report both deletion counts.
(The initial `SELECT COUNT(*)` of the source is dead code: its value is
never used in the returned dictionary.) -/
def cleanup_old_data_impl (db : DB) (cutoff : Nat) : DB × CleanupResult :=
  let phrases_to_update := cleanup_aggregates db.flagged_emails db.analysis_results cutoff
  let analysis_deleted :=
    db.analysis_results.countP (owner_is_old db.flagged_emails cutoff)
  let db1 := { db with
    analysis_results :=
      db.analysis_results.filter (fun r => !owner_is_old db.flagged_emails cutoff r) }
  let db2 := { db1 with
    phrase_statistics :=
      phrases_to_update.foldl
        (fun st (t : String × Nat × Nat) => decrement_phrase_statistics st t.1 t.2.1 t.2.2)
        db1.phrase_statistics }
  let emails_deleted := db2.flagged_emails.countP (fun e => decide (e.flagged_at < cutoff))
  ({ db2 with
      flagged_emails := db2.flagged_emails.filter (fun e => !decide (e.flagged_at < cutoff)) },
    ⟨emails_deleted, analysis_deleted⟩)

/-- `SELECT COUNT(*) FROM flagged_emails` (`get_flagged_email_count`). -/
def get_flagged_email_count (db : DB) : Nat := db.flagged_emails.length

/-- `_execute_in_transaction`: run the operation against the live
connection; on normal return commit its writes, on any raised failure
roll every write back and re-raise.  Every public mutating operation of
the service (`store_flagged_email`, `delete_flagged_email`,
`delete_analysis_result`, `update_flagged_email`, `cleanup_old_data`)
is `execute_in_transaction` applied to its `_impl`. -/
def execute_in_transaction {α ε : Type} (operation_func : DB → Except ε (α × DB))
    (db : DB) : Except ε α × DB :=
  match operation_func db with
  | .ok (a, db') => (.ok a, db')
  | .error e => (.error e, db)

/-- `store_flagged_email`, the public transactional wrapper. -/
def store_flagged_email (parsed_email : ParsedEmail)
    (suspicious_findings : List FindingInput) (now : Nat) (db : DB) :
    Except Empty Nat × DB :=
  execute_in_transaction (fun db =>
    let r := store_flagged_email_impl db parsed_email suspicious_findings now
    .ok (r.2, r.1)) db

/-- `delete_flagged_email`, the public transactional wrapper. -/
def delete_flagged_email (email_id : Nat) (db : DB) : Except Empty Bool × DB :=
  execute_in_transaction (fun db =>
    let r := delete_flagged_email_impl db email_id
    .ok (r.2, r.1)) db

/-- The committed states reachable from a fresh database through
completed public operations (store, delete_email, delete_finding,
cleanup). -/
inductive Reachable : DB → Prop where
  | init : Reachable empty_db
  | store (db : DB) (parsed_email : ParsedEmail)
      (suspicious_findings : List FindingInput) (now : Nat) :
      Reachable db →
      Reachable (store_flagged_email_impl db parsed_email suspicious_findings now).1
  | delete_email (db : DB) (email_id : Nat) :
      Reachable db → Reachable (delete_flagged_email_impl db email_id).1
  | delete_finding (db : DB) (result_id : Nat) :
      Reachable db → Reachable (delete_analysis_result_impl db result_id).1
  | cleanup (db : DB) (cutoff : Nat) :
      Reachable db → Reachable (cleanup_old_data_impl db cutoff).1

/-! ### Connection-failure model (`_connect`, `_get_cursor`, the
`except` clause of `_store_flagged_email_impl`) -/

/-- The exception classes a caller's `except` clause can distinguish:
Python's builtin `ConnectionError`, the driver's `OperationalError`
(what psycopg2 raises when the connection dies mid-operation), and a
plain `Exception(msg)`. -/
inductive PyError where
  | connection_error : PyError
  | operational_error : String → PyError
  | generic_exception : String → PyError
deriving DecidableEq, Repr

/-- `str(e)` for the modelled exception values. -/
def describe : PyError → String
  | PyError.connection_error => "connection error"
  | PyError.operational_error m => m
  | PyError.generic_exception m => m

/-- A psycopg2 connection; only its `closed` flag is observable to
`_get_cursor`. -/
structure Connection where
  closed : Bool
deriving DecidableEq, Repr

/-- `_connect`: a fresh open connection, or the wrapped
`Exception("Failed to connect to database: ...")`; `env_ok` models
whether `psycopg2.connect` succeeds and `err` the driver's message. -/
def connect_db (env_ok : Bool) (err : String) : Except PyError Connection :=
  if env_ok then Except.ok ⟨false⟩
  else Except.error (PyError.generic_exception
    ("Failed to connect to database: " ++ err))

/-- `_get_cursor`: reconnect whenever there is no live connection
(`self.connection` is `None` or `closed`), otherwise keep the current
connection. -/
def get_cursor (conn : Option Connection) (env_ok : Bool) (err : String) :
    Except PyError Connection :=
  match conn with
  | none => connect_db env_ok err
  | some c => if c.closed then connect_db env_ok err else Except.ok c

/-- The `except` clause of `_store_flagged_email_impl`: whatever the
body raised is re-raised as a plain
`Exception("Failed to store flagged email: " + str(e))`. -/
def wrap_store_failure (e : PyError) : PyError :=
  PyError.generic_exception ("Failed to store flagged email: " ++ describe e)

/-- A `store_flagged_email` call whose cursor work raises `fault`
mid-operation: the impl's except clause wraps it and
`_execute_in_transaction` rolls back and re-raises the wrapped error. -/
def store_flagged_email_faulty (fault : PyError) (db : DB) :
    Except PyError Nat × DB :=
  execute_in_transaction (fun _ => Except.error (wrap_store_failure fault)) db

/-! ### Derived predicates, abstract rows, and witness states -/

/-- The ledger is exact for phrase `p` at actual counts `(T, A)`: a row
exists iff the phrase occurs somewhere (`0 < T`), and then its two
counters hold exactly the actual counts. -/
def stat_ok (st : List StatRow) (p : String) (T A : Nat) : Prop :=
  match st.find? (fun r => r.suspicious_phrase == p) with
  | none => T = 0
  | some r => 0 < T ∧ r.total_occurrences = (T : Int) ∧ r.emails_affected = (A : Int)

/-- The row the conflict branch of the upsert writes for the matched
ledger row. -/
def su_row (r : StatRow) (oldc newc : Nat) (inew : Bool) (now : Nat) : StatRow :=
  { r with
    total_occurrences := r.total_occurrences + ((newc : Int) - (oldc : Int))
    emails_affected := r.emails_affected + emails_affected_delta_of inew oldc newc
    last_seen :=
      if 0 < (newc : Int) - (oldc : Int) ∨
          0 < emails_affected_delta_of inew oldc newc
      then now else r.last_seen }

/-- The row the decrement `UPDATE` writes for the matched ledger row
(`last_seen` untouched). -/
def dec_row (r : StatRow) (od ad : Nat) : StatRow :=
  { r with
    total_occurrences := r.total_occurrences - (od : Int)
    emails_affected := r.emails_affected - (ad : Int) }

/-- Well-formedness plus ledger exactness: the inductive invariant of
every committed state. -/
structure Inv (db : DB) : Prop where
  email_ids_nodup : (db.flagged_emails.map (fun e => e.id)).Nodup
  email_hashes_nodup : (db.flagged_emails.map (fun e => e.email_hash)).Nodup
  result_ids_nodup : (db.analysis_results.map (fun r => r.id)).Nodup
  stat_phrases_nodup : (db.phrase_statistics.map (fun r => r.suspicious_phrase)).Nodup
  email_ids_lt : ∀ e ∈ db.flagged_emails, e.id < db.next_email_id
  result_ids_lt : ∀ r ∈ db.analysis_results, r.id < db.next_result_id
  owners_exist : ∀ r ∈ db.analysis_results,
    r.flagged_email_id ∈ db.flagged_emails.map (fun e => e.id)
  ledger : ∀ p, stat_ok db.phrase_statistics p
    (occurrences_of db.analysis_results p)
    (emails_containing db.flagged_emails db.analysis_results p)

/-- Modelled from the spec: the `emails_affected` delta formula of §4.5,
`+1` when the phrase becomes present in the email, `-1` when it becomes
absent, `0` otherwise. -/
def spec_emails_affected_delta (old_count new_count : Nat) : Int :=
  if old_count = 0 ∧ 0 < new_count then 1
  else if 0 < old_count ∧ new_count = 0 then -1
  else 0

/-- Every ledger row surviving a write traces back to a pre-write row of
the same phrase with the same `last_seen`. -/
def lsp (st st' : List StatRow) : Prop :=
  ∀ q r', st'.find? (fun x => x.suspicious_phrase == q) = some r' →
    ∃ r, st.find? (fun x => x.suspicious_phrase == q) = some r ∧
      r'.last_seen = r.last_seen

/-- Concrete parsed email used by the witnesses. -/
def wit_pe : ParsedEmail := ⟨"s", "a", "b", some 3, "c"⟩

/-- Concrete finding used by the witnesses. -/
def wit_f : FindingInput := ⟨"u", "body", 1, "x"⟩

/-- The committed state after one concrete `store` on a fresh database. -/
def wit_db1 : DB := (store_flagged_email_impl empty_db wit_pe [wit_f] 5).1

/-! ### Generic list lemmas used throughout the development -/

theorem findq_append_of_none {α : Type} {l₁ : List α} (l₂ : List α) {p : α → Bool}
    (h : l₁.find? p = none) : (l₁ ++ l₂).find? p = l₂.find? p := by
  induction l₁ with
  | nil => rfl
  | cons a l ih =>
    rw [List.find?_eq_none] at h
    have hpa : p a = false := by
      have := h a (List.mem_cons_self a l)
      simpa using this
    have h' : l.find? p = none :=
      List.find?_eq_none.mpr (fun x hx => h x (List.mem_cons_of_mem a hx))
    rw [List.cons_append]
    simp only [List.find?_cons, hpa]
    exact ih h'

theorem findq_append_outside {α : Type} {l₁ l₂ : List α} {p : α → Bool}
    (h : l₂.find? p = none) : (l₁ ++ l₂).find? p = l₁.find? p := by
  induction l₁ with
  | nil => simpa using h
  | cons a l ih =>
    rw [List.cons_append]
    cases hpa : p a with
    | true => simp only [List.find?_cons, hpa]
    | false => simp only [List.find?_cons, hpa]; exact ih

theorem findq_map_comm {α : Type} {l : List α} {f : α → α} {p : α → Bool}
    (h : ∀ x, p (f x) = p x) : (l.map f).find? p = (l.find? p).map f := by
  induction l with
  | nil => rfl
  | cons a l ih =>
    rw [List.map_cons]
    cases hpa : p a with
    | true => simp only [List.find?_cons, h a, hpa, Option.map]
    | false => simp only [List.find?_cons, h a, hpa]; exact ih

theorem findq_filter_of_found {α : Type} {l : List α} {p keep : α → Bool} {y : α}
    (hy : l.find? p = some y) (hk : keep y = true) :
    (l.filter keep).find? p = some y := by
  induction l with
  | nil => simp at hy
  | cons a l ih =>
    rw [List.filter_cons]
    cases hpa : p a with
    | true =>
      simp only [List.find?_cons, hpa] at hy
      cases hy
      simp only [hk, if_true]
      simp only [List.find?_cons, hpa]
    | false =>
      simp only [List.find?_cons, hpa] at hy
      cases hka : keep a with
      | true =>
        simp only [hka, if_true]
        simp only [List.find?_cons, hpa]
        exact ih hy
      | false =>
        simp only [hka, Bool.false_eq_true, if_false]
        exact ih hy

theorem findq_filter_of_removed {α : Type} {l : List α} {p keep : α → Bool}
    (h : ∀ x ∈ l, p x = true → keep x = false) :
    (l.filter keep).find? p = none := by
  rw [List.find?_eq_none]
  intro x hx
  rw [List.mem_filter] at hx
  intro hpx
  rw [h x hx.1 hpx] at hx
  exact Bool.noConfusion hx.2

theorem findq_filter_of_kept {α : Type} {l : List α} {p keep : α → Bool}
    (h : ∀ x ∈ l, p x = true → keep x = true) :
    (l.filter keep).find? p = l.find? p := by
  induction l with
  | nil => rfl
  | cons a l ih =>
    rw [List.filter_cons]
    have ih' := ih (fun x hx => h x (List.mem_cons_of_mem a hx))
    cases hpa : p a with
    | true =>
      simp only [h a (List.mem_cons_self a l) hpa, if_true]
      simp only [List.find?_cons, hpa]
    | false =>
      cases hka : keep a with
      | true =>
        simp only [hka, if_true]
        simp only [List.find?_cons, hpa]
        exact ih'
      | false =>
        simp only [hka, Bool.false_eq_true, if_false]
        simp only [List.find?_cons, hpa]
        exact ih'

theorem findq_eq_of_mem_key {α β : Type} [BEq β] [LawfulBEq β] {l : List α}
    {key : α → β} (hnd : (l.map key).Nodup) {k : β} {y : α}
    (hy : l.find? (fun x => key x == k) = some y) :
    ∀ x ∈ l, key x = k → x = y := by
  induction l with
  | nil => simp at hy
  | cons b l ih =>
    rw [List.map_cons, List.nodup_cons] at hnd
    intro x hx hkx
    cases hpa : (key b == k) with
    | true =>
      simp only [List.find?_cons, hpa] at hy
      have hby : b = y := Option.some.inj hy
      rcases List.mem_cons.mp hx with hxb | hx'
      · rw [hxb, hby]
      · exfalso
        have hbk : key b = k := by simpa using hpa
        refine hnd.1 ?_
        rw [hbk, ← hkx]
        exact List.mem_map_of_mem key hx'
    | false =>
      simp only [List.find?_cons, hpa] at hy
      rcases List.mem_cons.mp hx with hxb | hx'
      · exfalso
        have hbk : key b = k := by rw [← hxb]; exact hkx
        have : (key b == k) = true := by simp [hbk]
        rw [this] at hpa
        exact Bool.noConfusion hpa
      · exact ih hnd.2 hy x hx' hkx

theorem map_eq_self_of {α : Type} {l : List α} {f : α → α}
    (h : ∀ x ∈ l, f x = x) : l.map f = l := by
  induction l with
  | nil => rfl
  | cons a l ih =>
    rw [List.map_cons, h a (List.mem_cons_self a l),
      ih (fun x hx => h x (List.mem_cons_of_mem a hx))]

/-! ### The ledger-correctness predicate and the single-phrase lemmas -/

/-- Under the caller contract `is_new_email → old_count = 0`, the
`emails_affected` delta of the source equals the membership change
`[new_count > 0] - [old_count > 0]`. -/
theorem delta_eq (inew : Bool) (oldc newc : Nat) (h : inew = true → oldc = 0) :
    emails_affected_delta_of inew oldc newc
      = (if 0 < newc then 1 else 0) - (if 0 < oldc then 1 else 0) := by
  cases inew with
  | true =>
    rw [h rfl]
    simp only [emails_affected_delta_of, if_true]
    split
    · simp
    · simp
  | false =>
    simp only [emails_affected_delta_of, Bool.false_eq_true, if_false]
    by_cases h1 : oldc = 0 <;> by_cases h2 : 0 < newc <;>
      simp [h1, h2] <;> omega

theorem stat_upsert_phrase {st : List StatRow} {p : String}
    {oldc newc : Nat} {inew : Bool} {now : Nat} :
    (stat_upsert st p oldc newc inew now).map (fun r => r.suspicious_phrase)
      = st.map (fun r => r.suspicious_phrase) ∨
    ((stat_upsert st p oldc newc inew now).map (fun r => r.suspicious_phrase)
        = st.map (fun r => r.suspicious_phrase) ++ [p] ∧
      st.find? (fun r => r.suspicious_phrase == p) = none) := by
  unfold stat_upsert
  cases hany : st.any (fun r => r.suspicious_phrase == p) with
  | true =>
    left
    simp only [if_true]
    rw [List.map_map]
    refine List.map_congr_left ?_
    intro r _
    simp only [Function.comp]
    split <;> rfl
  | false =>
    right
    simp only [Bool.false_eq_true, if_false]
    constructor
    · simp
    · rw [List.find?_eq_none]
      intro x hx
      have := List.any_eq_false.mp hany x hx
      simpa using this

theorem stat_upsert_nodup {st : List StatRow} {p : String}
    {oldc newc : Nat} {inew : Bool} {now : Nat}
    (hnd : (st.map (fun r => r.suspicious_phrase)).Nodup) :
    ((stat_upsert st p oldc newc inew now).map (fun r => r.suspicious_phrase)).Nodup := by
  rcases @stat_upsert_phrase st p oldc newc inew now with h | ⟨h, hf⟩
  · rw [h]; exact hnd
  · rw [h]
    rw [List.nodup_append]
    refine ⟨hnd, List.nodup_singleton p, ?_⟩
    intro a ha hb
    have : a = p := by simpa using hb
    subst this
    rw [List.mem_map] at ha
    obtain ⟨r, hr, hrp⟩ := ha
    rw [List.find?_eq_none] at hf
    exact hf r hr (by simp [hrp])

theorem filter_phrase_sublist {l : List StatRow} {keep : StatRow → Bool} :
    ((l.filter keep).map (fun r => r.suspicious_phrase)).Sublist
      (l.map (fun r => r.suspicious_phrase)) :=
  (List.filter_sublist l).map (fun r => r.suspicious_phrase)

theorem update_phrase_statistics_nodup {st : List StatRow} {p : String}
    {oldc newc : Nat} {inew : Bool} {now : Nat}
    (hnd : (st.map (fun r => r.suspicious_phrase)).Nodup) :
    ((update_phrase_statistics_with_delta st p oldc newc inew now).map
      (fun r => r.suspicious_phrase)).Nodup := by
  unfold update_phrase_statistics_with_delta
  split
  · exact (stat_upsert_nodup hnd).sublist filter_phrase_sublist
  · exact stat_upsert_nodup hnd

theorem decrement_phrase_statistics_nodup {st : List StatRow} {p : String}
    {od ad : Nat}
    (hnd : (st.map (fun r => r.suspicious_phrase)).Nodup) :
    ((decrement_phrase_statistics st p od ad).map
      (fun r => r.suspicious_phrase)).Nodup := by
  unfold decrement_phrase_statistics
  refine List.Nodup.sublist filter_phrase_sublist ?_
  rw [List.map_map]
  have : st.map ((fun r => r.suspicious_phrase) ∘ (fun r =>
      if r.suspicious_phrase == p then
        { r with
          total_occurrences := r.total_occurrences - (od : Int)
          emails_affected := r.emails_affected - (ad : Int) }
      else r)) = st.map (fun r => r.suspicious_phrase) := by
    refine List.map_congr_left ?_
    intro r _
    simp only [Function.comp]
    split <;> rfl
  rw [this]
  exact hnd

theorem stat_keep_false_iff {p : String} {x : StatRow} :
    stat_keep p x = false ↔
      x.suspicious_phrase = p ∧ x.total_occurrences ≤ 0 ∧ x.emails_affected ≤ 0 := by
  simp [stat_keep, and_assoc]

theorem stat_keep_true_of_ne {p : String} {x : StatRow}
    (h : x.suspicious_phrase ≠ p) : stat_keep p x = true := by
  simp [stat_keep, h]

theorem su_none {st : List StatRow} {p : String} {oldc newc : Nat} {inew : Bool}
    {now : Nat} (hf : st.find? (fun r => r.suspicious_phrase == p) = none) :
    stat_upsert st p oldc newc inew now
      = st ++ [⟨p, (newc : Int), emails_affected_delta_of inew oldc newc, now⟩] := by
  unfold stat_upsert
  have hany : st.any (fun r => r.suspicious_phrase == p) = false := by
    rw [List.any_eq_false]
    intro x hx
    have := List.find?_eq_none.mp hf x hx
    simpa using this
  rw [hany]
  simp

theorem su_find_p {st : List StatRow} {p : String} {oldc newc : Nat} {inew : Bool}
    {now : Nat} {r : StatRow}
    (hf : st.find? (fun x => x.suspicious_phrase == p) = some r) :
    (stat_upsert st p oldc newc inew now).find? (fun x => x.suspicious_phrase == p)
      = some (su_row r oldc newc inew now) := by
  unfold stat_upsert
  have hrp : (r.suspicious_phrase == p) = true :=
    @List.find?_some StatRow (fun x => x.suspicious_phrase == p) r st hf
  have hany : st.any (fun x => x.suspicious_phrase == p) = true :=
    List.any_eq_true.mpr ⟨r, List.mem_of_find?_eq_some hf, hrp⟩
  rw [if_pos hany]
  rw [findq_map_comm (fun x => by split <;> rfl), hf]
  simp only [Option.map]
  rw [if_pos hrp]
  rfl

theorem su_find_q {st : List StatRow} {p : String} {oldc newc : Nat} {inew : Bool}
    {now : Nat} {q : String} (hq : q ≠ p) :
    (stat_upsert st p oldc newc inew now).find? (fun x => x.suspicious_phrase == q)
      = st.find? (fun x => x.suspicious_phrase == q) := by
  unfold stat_upsert
  cases hany : st.any (fun x => x.suspicious_phrase == p) with
  | true =>
    simp only [if_true]
    rw [findq_map_comm (fun x => by split <;> rfl)]
    cases hfq : st.find? (fun x => x.suspicious_phrase == q) with
    | none => rfl
    | some y =>
      have hyq : y.suspicious_phrase = q := by simpa using List.find?_some hfq
      simp only [Option.map]
      rw [if_neg (by simp [hyq, hq])]
  | false =>
    simp only [Bool.false_eq_true, if_false]
    refine findq_append_outside ?_
    have : (p == q) = false := by simpa using fun h => hq h.symm
    simp [List.find?, this]

theorem su_mem_p {st : List StatRow} {p : String} {oldc newc : Nat} {inew : Bool}
    {now : Nat} {r : StatRow}
    (hnd : (st.map (fun x => x.suspicious_phrase)).Nodup)
    (hf : st.find? (fun x => x.suspicious_phrase == p) = some r) :
    ∀ x ∈ stat_upsert st p oldc newc inew now, x.suspicious_phrase = p →
      x = su_row r oldc newc inew now := by
  unfold stat_upsert
  have hrp : (r.suspicious_phrase == p) = true :=
    @List.find?_some StatRow (fun x => x.suspicious_phrase == p) r st hf
  have hany : st.any (fun x => x.suspicious_phrase == p) = true :=
    List.any_eq_true.mpr ⟨r, List.mem_of_find?_eq_some hf, hrp⟩
  rw [if_pos hany]
  intro x hx hxp
  rw [List.mem_map] at hx
  obtain ⟨y, hy, hfnx⟩ := hx
  have hyphrase : y.suspicious_phrase = x.suspicious_phrase := by
    rw [← hfnx]
    split <;> rfl
  have hyr : y = r :=
    findq_eq_of_mem_key hnd hf y hy (by rw [hyphrase, hxp])
  rw [← hfnx, hyr]
  rw [if_pos hrp]
  rfl

/-- Effect of one `_update_phrase_statistics_with_delta` call on the
exactness predicate: if the ledger was exact for `p` at the pre-state
actual counts `(T, A)`, it is exact at the post-state actual counts
`(T', A')` afterwards, and rows of every other phrase are untouched. -/
theorem update_stat_ok
    {st : List StatRow} {p : String} {oldc newc : Nat} {inew : Bool} {now : Nat}
    {T A T' A' : Nat}
    (hnd : (st.map (fun r => r.suspicious_phrase)).Nodup)
    (hok : stat_ok st p T A)
    (h0 : 0 < oldc ∨ 0 < newc)
    (hold : oldc ≤ T)
    (hAT : A = 0 ↔ T = 0)
    (hT' : (T' : Int) = (T : Int) - (oldc : Int) + (newc : Int))
    (hA' : (A' : Int) = (A : Int) - (if 0 < oldc then (1 : Int) else 0)
      + (if 0 < newc then (1 : Int) else 0))
    (hAT' : A' = 0 ↔ T' = 0)
    (hinew : inew = true → oldc = 0) :
    stat_ok (update_phrase_statistics_with_delta st p oldc newc inew now) p T' A' ∧
    ∀ q, q ≠ p →
      (update_phrase_statistics_with_delta st p oldc newc inew now).find?
          (fun r => r.suspicious_phrase == q)
        = st.find? (fun r => r.suspicious_phrase == q) := by
  have hδ := delta_eq inew oldc newc hinew
  cases hf : st.find? (fun r => r.suspicious_phrase == p) with
  | none =>
    have hT0 : T = 0 := by
      have := hok
      unfold stat_ok at this
      rw [hf] at this
      exact this
    have holdc : oldc = 0 := by omega
    have hnewc : 0 < newc := by
      rcases h0 with h | h
      · omega
      · exact h
    have hδ1 : emails_affected_delta_of inew oldc newc = 1 := by
      rw [hδ, holdc]
      simp [hnewc]
    have hcond : ¬((newc : Int) - (oldc : Int) < 0 ∨
        emails_affected_delta_of inew oldc newc < 0) := by
      rw [hδ1, holdc]
      omega
    have hTnew : T' = newc := by
      have : (T' : Int) = (newc : Int) := by
        rw [hT', hT0, holdc]
        push_cast
        ring
      exact_mod_cast this
    have hA1 : (A' : Int) = 1 := by
      rw [hA', hAT.mpr hT0, holdc]
      simp [hnewc]
    unfold update_phrase_statistics_with_delta
    rw [if_neg hcond, su_none hf]
    constructor
    · unfold stat_ok
      rw [findq_append_of_none _ hf]
      have hsingle : List.find? (fun r => r.suspicious_phrase == p)
          ([⟨p, (newc : Int), emails_affected_delta_of inew oldc newc, now⟩] : List StatRow)
          = some ⟨p, (newc : Int), emails_affected_delta_of inew oldc newc, now⟩ := by
        simp [List.find?_cons]
      rw [hsingle]
      show 0 < T' ∧ (newc : Int) = (T' : Int) ∧
        emails_affected_delta_of inew oldc newc = (A' : Int)
      refine ⟨by omega, by rw [hTnew], by rw [hδ1, hA1]⟩
    · intro q hq
      have hpq : (p == q) = false := by
        simp only [beq_eq_false_iff_ne, ne_eq]
        intro h
        exact hq h.symm
      have hsingle : List.find? (fun r => r.suspicious_phrase == q)
          ([⟨p, (newc : Int), emails_affected_delta_of inew oldc newc, now⟩] : List StatRow)
          = none := by
        simp [List.find?_cons, hpq]
      rw [findq_append_outside hsingle]
  | some r =>
    obtain ⟨hTpos, hrT, hrA⟩ : 0 < T ∧ r.total_occurrences = (T : Int) ∧
        r.emails_affected = (A : Int) := by
      have := hok
      unfold stat_ok at this
      rw [hf] at this
      exact this
    have hvalT : (su_row r oldc newc inew now).total_occurrences = (T' : Int) := by
      unfold su_row
      simp only
      rw [hrT, hT']
      ring
    have hvalA : (su_row r oldc newc inew now).emails_affected = (A' : Int) := by
      unfold su_row
      simp only
      rw [hrA, hA', hδ]
      ring
    have hfup := @su_find_p st p oldc newc inew now r hf
    constructor
    · unfold update_phrase_statistics_with_delta
      by_cases hcond : ((newc : Int) - (oldc : Int) < 0 ∨
          emails_affected_delta_of inew oldc newc < 0)
      · rw [if_pos hcond]
        by_cases hT'0 : T' = 0
        · -- both counters hit zero: the row is retired
          have hA'0 : A' = 0 := hAT'.mpr hT'0
          have hrp : r.suspicious_phrase = p := by
            simpa using @List.find?_some StatRow (fun x => x.suspicious_phrase == p) r st hf
          have hkeep : stat_keep p (su_row r oldc newc inew now) = false := by
            rw [stat_keep_false_iff]
            refine ⟨hrp, ?_, ?_⟩
            · rw [hvalT, hT'0]; simp
            · rw [hvalA, hA'0]; simp
          unfold stat_ok
          rw [findq_filter_of_removed ?hrem]
          · exact hT'0
          case hrem =>
            intro x hx hxp
            have hxp' : x.suspicious_phrase = p := by simpa using hxp
            rw [su_mem_p hnd hf x hx hxp']
            exact hkeep
        · -- total still positive: the row survives the cleanup
          have hkeep : stat_keep p (su_row r oldc newc inew now) = true := by
            cases hk : stat_keep p (su_row r oldc newc inew now) with
            | true => rfl
            | false =>
              exfalso
              obtain ⟨-, h1, -⟩ := stat_keep_false_iff.mp hk
              rw [hvalT] at h1
              have : T' = 0 := by exact_mod_cast le_antisymm h1 (by positivity)
              exact hT'0 this
          unfold stat_ok
          rw [findq_filter_of_found hfup hkeep]
          exact ⟨Nat.pos_of_ne_zero hT'0, hvalT, hvalA⟩
      · rw [if_neg hcond]
        unfold stat_ok
        rw [hfup]
        push_neg at hcond
        have hT'pos : 0 < T' := by
          have h1 : (0 : Int) ≤ (newc : Int) - (oldc : Int) := hcond.1
          have : (0 : Int) < (T' : Int) := by
            rw [hT']
            have : (0 : Int) < (T : Int) := by exact_mod_cast hTpos
            omega
          exact_mod_cast this
        exact ⟨hT'pos, hvalT, hvalA⟩
    · intro q hq
      unfold update_phrase_statistics_with_delta
      have hfq := @su_find_q st p oldc newc inew now q hq
      split
      · rw [findq_filter_of_kept, hfq]
        intro x hx hxq
        refine stat_keep_true_of_ne ?_
        have : x.suspicious_phrase = q := by simpa using hxq
        rw [this]
        exact hq
      · exact hfq

theorem dec_map_find_p {st : List StatRow} {p : String} {od ad : Nat} {r : StatRow}
    (hf : st.find? (fun x => x.suspicious_phrase == p) = some r) :
    (st.map (fun x =>
      if x.suspicious_phrase == p then
        { x with
          total_occurrences := x.total_occurrences - (od : Int)
          emails_affected := x.emails_affected - (ad : Int) }
      else x)).find? (fun x => x.suspicious_phrase == p) = some (dec_row r od ad) := by
  rw [findq_map_comm (fun x => by split <;> rfl), hf]
  have hrp : (r.suspicious_phrase == p) = true :=
    @List.find?_some StatRow (fun x => x.suspicious_phrase == p) r st hf
  simp only [Option.map]
  rw [if_pos hrp]
  rfl

/-- Effect of one `_decrement_phrase_statistics` call on the exactness
predicate, mirroring `update_stat_ok`. -/
theorem decrement_stat_ok
    {st : List StatRow} {p : String} {od ad : Nat} {T A T' A' : Nat}
    (hnd : (st.map (fun r => r.suspicious_phrase)).Nodup)
    (hok : stat_ok st p T A)
    (hod : od ≤ T)
    (hT' : (T' : Int) = (T : Int) - (od : Int))
    (hA' : (A' : Int) = (A : Int) - (ad : Int))
    (hAT' : A' = 0 ↔ T' = 0) :
    stat_ok (decrement_phrase_statistics st p od ad) p T' A' ∧
    ∀ q, q ≠ p →
      (decrement_phrase_statistics st p od ad).find?
          (fun r => r.suspicious_phrase == q)
        = st.find? (fun r => r.suspicious_phrase == q) := by
  cases hf : st.find? (fun r => r.suspicious_phrase == p) with
  | none =>
    have hT0 : T = 0 := by
      have := hok
      unfold stat_ok at this
      rw [hf] at this
      exact this
    have hT'0 : T' = 0 := by
      have : (T' : Int) = 0 := by rw [hT', hT0]; omega
      exact_mod_cast this
    have hnop : ∀ x ∈ (st.map (fun x =>
        if x.suspicious_phrase == p then
          { x with
            total_occurrences := x.total_occurrences - (od : Int)
            emails_affected := x.emails_affected - (ad : Int) }
        else x)), (x.suspicious_phrase == p) = false := by
      intro x hx
      rw [List.mem_map] at hx
      obtain ⟨y, hy, hyx⟩ := hx
      have hyp : (y.suspicious_phrase == p) = false := by
        have := List.find?_eq_none.mp hf y hy
        simpa using this
      have hphr : x.suspicious_phrase = y.suspicious_phrase := by
        rw [← hyx]
        split <;> rfl
      rw [hphr]
      exact hyp
    constructor
    · unfold stat_ok decrement_phrase_statistics
      rw [List.find?_eq_none.mpr ?hnone]
      · exact hT'0
      case hnone =>
        intro x hx
        rw [List.mem_filter] at hx
        have := hnop x hx.1
        simp [this]
    · intro q hq
      unfold decrement_phrase_statistics
      rw [findq_filter_of_kept ?hkept]
      case hkept =>
        intro x hx hxq
        refine stat_keep_true_of_ne ?_
        have hxq' : x.suspicious_phrase = q := by simpa using hxq
        rw [hxq']
        exact hq
      rw [findq_map_comm (fun x => by split <;> rfl)]
      cases hfq : st.find? (fun x => x.suspicious_phrase == q) with
      | none => rfl
      | some y =>
        have hyq : y.suspicious_phrase = q := by
          simpa using @List.find?_some StatRow (fun x => x.suspicious_phrase == q) y st hfq
        simp only [Option.map]
        rw [if_neg (by simp [hyq]; intro h; exact hq (h.symm ▸ rfl))]
  | some r =>
    obtain ⟨hTpos, hrT, hrA⟩ : 0 < T ∧ r.total_occurrences = (T : Int) ∧
        r.emails_affected = (A : Int) := by
      have := hok
      unfold stat_ok at this
      rw [hf] at this
      exact this
    have hrp : r.suspicious_phrase = p := by
      simpa using @List.find?_some StatRow (fun x => x.suspicious_phrase == p) r st hf
    have hvalT : (dec_row r od ad).total_occurrences = (T' : Int) := by
      unfold dec_row
      simp only
      rw [hrT, hT']
    have hvalA : (dec_row r od ad).emails_affected = (A' : Int) := by
      unfold dec_row
      simp only
      rw [hrA, hA']
    have hfmap := @dec_map_find_p st p od ad r hf
    constructor
    · by_cases hT'0 : T' = 0
      · have hA'0 : A' = 0 := hAT'.mpr hT'0
        have hkeep : stat_keep p (dec_row r od ad) = false := by
          rw [stat_keep_false_iff]
          refine ⟨hrp, ?_, ?_⟩
          · rw [hvalT, hT'0]; simp
          · rw [hvalA, hA'0]; simp
        unfold stat_ok decrement_phrase_statistics
        rw [findq_filter_of_removed ?hrem]
        · exact hT'0
        case hrem =>
          intro x hx hxp
          have hxp' : x.suspicious_phrase = p := by simpa using hxp
          rw [List.mem_map] at hx
          obtain ⟨y, hy, hyx⟩ := hx
          have hyphrase : y.suspicious_phrase = x.suspicious_phrase := by
            rw [← hyx]
            split <;> rfl
          have hyr : y = r := findq_eq_of_mem_key hnd hf y hy (by rw [hyphrase, hxp'])
          have : x = dec_row r od ad := by
            rw [← hyx, hyr, if_pos (by simp [hrp])]
            rfl
          rw [this]
          exact hkeep
      · have hkeep : stat_keep p (dec_row r od ad) = true := by
          cases hk : stat_keep p (dec_row r od ad) with
          | true => rfl
          | false =>
            exfalso
            obtain ⟨-, h1, -⟩ := stat_keep_false_iff.mp hk
            rw [hvalT] at h1
            have : T' = 0 := by exact_mod_cast le_antisymm h1 (by positivity)
            exact hT'0 this
        unfold stat_ok decrement_phrase_statistics
        rw [findq_filter_of_found hfmap hkeep]
        exact ⟨Nat.pos_of_ne_zero hT'0, hvalT, hvalA⟩
    · intro q hq
      unfold decrement_phrase_statistics
      rw [findq_filter_of_kept ?hkept]
      case hkept =>
        intro x hx hxq
        refine stat_keep_true_of_ne ?_
        have hxq' : x.suspicious_phrase = q := by simpa using hxq
        rw [hxq']
        exact hq
      rw [findq_map_comm (fun x => by split <;> rfl)]
      cases hfq : st.find? (fun x => x.suspicious_phrase == q) with
      | none => rfl
      | some y =>
        have hyq : y.suspicious_phrase = q := by
          simpa using @List.find?_some StatRow (fun x => x.suspicious_phrase == q) y st hfq
        simp only [Option.map]
        rw [if_neg (by simp [hyq]; intro h; exact hq (h.symm ▸ rfl))]

/-! ### Counting lemmas for the actual occurrence counts -/

theorem countP_congr_mem {α : Type} {l : List α} {p q : α → Bool}
    (h : ∀ a ∈ l, p a = q a) : l.countP p = l.countP q := by
  induction l with
  | nil => rfl
  | cons a l ih =>
    rw [List.countP_cons, List.countP_cons,
      ih (fun x hx => h x (List.mem_cons_of_mem a hx)), h a (List.mem_cons_self a l)]

theorem countP_split {α : Type} (l : List α) (p q : α → Bool) :
    l.countP p = l.countP (fun a => p a && q a) + l.countP (fun a => p a && !q a) := by
  induction l with
  | nil => rfl
  | cons a l ih =>
    rw [List.countP_cons, List.countP_cons, List.countP_cons, ih]
    cases hpa : p a <;> cases hqa : q a <;> simp [hpa, hqa] <;> omega

theorem countP_filter_and {α : Type} (l : List α) (p q : α → Bool) :
    (l.filter q).countP p = l.countP (fun a => p a && q a) := by
  induction l with
  | nil => rfl
  | cons a l ih =>
    rw [List.filter_cons, List.countP_cons]
    cases hqa : q a with
    | true =>
      rw [if_pos rfl, List.countP_cons, ih]
      simp [hqa]
    | false =>
      rw [if_neg (by simp), ih]
      simp [hqa]

theorem sum_map_add {α : Type} (l : List α) (f g : α → Nat) :
    (l.map (fun x => f x + g x)).sum = (l.map f).sum + (l.map g).sum := by
  induction l with
  | nil => rfl
  | cons a l ih =>
    simp only [List.map_cons, List.sum_cons, ih]
    omega

theorem sum_map_zero {α : Type} (l : List α) :
    (l.map (fun _ => (0 : Nat))).sum = 0 := by
  induction l with
  | nil => rfl
  | cons a l ih => simpa using ih

theorem countP_eq_one_of_nodup {α β : Type} [BEq β] [LawfulBEq β]
    {l : List α} {f : α → β} (hnd : (l.map f).Nodup) {v : β}
    (hv : v ∈ l.map f) : l.countP (fun x => f x == v) = 1 := by
  induction l with
  | nil => simp at hv
  | cons a l ih =>
    rw [List.map_cons, List.nodup_cons] at hnd
    rw [List.countP_cons]
    rcases List.mem_map.mp hv with ⟨x, hx, hfx⟩
    rcases List.mem_cons.mp hx with hxa | hx'
    · have hfa : (f a == v) = true := by
        rw [← hfx, hxa]
        simp
      rw [if_pos hfa]
      have hzero : l.countP (fun x => f x == v) = 0 := by
        rw [List.countP_eq_zero]
        intro y hy hfy
        refine hnd.1 ?_
        have hyv : f y = v := by simpa using hfy
        have hav : f a = v := by rw [← hxa]; exact hfx
        rw [hav, ← hyv]
        exact List.mem_map_of_mem f hy
      omega
    · have hfa : (f a == v) = false := by
        have hne : f a ≠ v := by
          intro h
          refine hnd.1 ?_
          rw [h, ← hfx]
          exact List.mem_map_of_mem f hx'
        simpa using hne
      rw [if_neg (by simp [hfa])]
      have : v ∈ l.map f := by
        rw [← hfx]
        exact List.mem_map_of_mem f hx'
      simpa using ih hnd.2 this

theorem countP_eq_zero_of_not_mem {α β : Type} [BEq β] [LawfulBEq β]
    {l : List α} {f : α → β} {v : β}
    (hv : v ∉ l.map f) : l.countP (fun x => f x == v) = 0 := by
  rw [List.countP_eq_zero]
  intro y hy hfy
  refine hv ?_
  have : f y = v := by simpa using hfy
  rw [← this]
  exact List.mem_map_of_mem f hy

theorem occurrences_of_append (rs l : List ResultRow) (p : String) :
    occurrences_of (rs ++ l) p = occurrences_of rs p + occurrences_of l p :=
  List.countP_append _ _ _

theorem count_in_email_append (rs l : List ResultRow) (p : String) (eid : Nat) :
    count_in_email (rs ++ l) p eid = count_in_email rs p eid + count_in_email l p eid :=
  List.countP_append _ _ _

theorem rendered_occurrences (eid : Nat) (fs : List FindingInput) (now : Nat)
    (p : String) : ∀ next, occurrences_of (rendered_rows eid fs next now) p
      = new_count_of fs p := by
  induction fs with
  | nil => intro next; rfl
  | cons f rest ih =>
    intro next
    unfold rendered_rows occurrences_of new_count_of
    rw [List.countP_cons, List.countP_cons]
    unfold occurrences_of new_count_of at ih
    rw [ih (next + 1)]

theorem rendered_count_in_email (eid : Nat) (fs : List FindingInput) (now : Nat)
    (p : String) (e : Nat) : ∀ next, count_in_email (rendered_rows eid fs next now) p e
      = if e = eid then new_count_of fs p else 0 := by
  induction fs with
  | nil =>
    intro next
    simp [rendered_rows, count_in_email, new_count_of, List.countP_nil]
  | cons f rest ih =>
    intro next
    unfold rendered_rows count_in_email
    rw [List.countP_cons]
    unfold count_in_email at ih
    rw [ih (next + 1)]
    by_cases he : e = eid
    · subst he
      simp only [if_pos rfl]
      unfold new_count_of
      rw [List.countP_cons]
      simp
    · have : (eid == e) = false := by
        simp only [beq_eq_false_iff_ne, ne_eq]
        intro h
        exact he h.symm
      simp [he, this]

theorem rendered_length (eid : Nat) (fs : List FindingInput) (now : Nat) :
    ∀ next, (rendered_rows eid fs next now).length = fs.length := by
  induction fs with
  | nil => intro next; rfl
  | cons f rest ih =>
    intro next
    unfold rendered_rows
    rw [List.length_cons, ih (next + 1)]
    simp

theorem rendered_mem (eid : Nat) (fs : List FindingInput) (now : Nat) :
    ∀ next, ∀ r ∈ rendered_rows eid fs next now,
      next ≤ r.id ∧ r.id < next + fs.length ∧ r.flagged_email_id = eid ∧
      r.created_at = now ∧
      ∃ f ∈ fs, r.suspicious_phrase = py_slice f.phrase 500 ∧
        r.segment_type = py_slice f.segment 100 := by
  induction fs with
  | nil => intro next r hr; simp [rendered_rows] at hr
  | cons f rest ih =>
    intro next r hr
    unfold rendered_rows at hr
    rcases List.mem_cons.mp hr with hhead | htail
    · subst hhead
      refine ⟨Nat.le_refl _, by simp [List.length_cons], rfl, rfl,
        f, List.mem_cons_self f rest, rfl, rfl⟩
    · obtain ⟨h1, h2, h3, h4, g, hg, h5, h6⟩ := ih (next + 1) r htail
      exact ⟨by omega, by simp [List.length_cons]; omega, h3, h4,
        g, List.mem_cons_of_mem f hg, h5, h6⟩

theorem rendered_ids_nodup (eid : Nat) (fs : List FindingInput) (now : Nat) :
    ∀ next, ((rendered_rows eid fs next now).map (fun r => r.id)).Nodup := by
  induction fs with
  | nil => intro next; simp [rendered_rows]
  | cons f rest ih =>
    intro next
    unfold rendered_rows
    rw [List.map_cons, List.nodup_cons]
    refine ⟨?_, ih (next + 1)⟩
    intro hmem
    rw [List.mem_map] at hmem
    obtain ⟨r, hr, hid⟩ := hmem
    have := (rendered_mem eid rest now (next + 1) r hr).1
    simp only at hid
    omega

theorem insert_findings_spec (eid : Nat) (fs : List FindingInput) (now : Nat) :
    ∀ db : DB,
      (insert_findings db eid fs now).analysis_results
        = db.analysis_results ++ rendered_rows eid fs db.next_result_id now ∧
      (insert_findings db eid fs now).flagged_emails = db.flagged_emails ∧
      (insert_findings db eid fs now).phrase_statistics = db.phrase_statistics ∧
      (insert_findings db eid fs now).next_email_id = db.next_email_id ∧
      (insert_findings db eid fs now).next_result_id
        = db.next_result_id + fs.length := by
  induction fs with
  | nil => intro db; simp [insert_findings, rendered_rows]
  | cons f rest ih =>
    intro db
    unfold insert_findings rendered_rows
    obtain ⟨h1, h2, h3, h4, h5⟩ := ih
      { db with
        analysis_results := db.analysis_results ++
          [⟨db.next_result_id, eid, py_slice f.phrase 500, py_slice f.segment 100,
            f.line_number, f.context, now⟩]
        next_result_id := db.next_result_id + 1 }
    refine ⟨?_, h2, h3, h4, ?_⟩
    · rw [h1]
      simp [List.append_assoc]
    · rw [h5]
      simp [List.length_cons]
      omega

theorem occurrences_of_erase_owner (rs : List ResultRow) (p : String) (eid : Nat) :
    occurrences_of (rs.filter (fun r => !(r.flagged_email_id == eid))) p
      + count_in_email rs p eid = occurrences_of rs p := by
  unfold occurrences_of count_in_email
  rw [countP_filter_and]
  have hsplit := countP_split rs (fun r => r.suspicious_phrase == p)
    (fun r => r.flagged_email_id == eid)
  have hcomm : rs.countP (fun r => r.flagged_email_id == eid && r.suspicious_phrase == p)
      = rs.countP (fun r => r.suspicious_phrase == p && r.flagged_email_id == eid) :=
    countP_congr_mem (fun r _ => Bool.and_comm _ _)
  rw [hcomm]
  omega

theorem count_in_email_erase_owner (rs : List ResultRow) (p : String) {eid e : Nat}
    (he : e ≠ eid) :
    count_in_email (rs.filter (fun r => !(r.flagged_email_id == eid))) p e
      = count_in_email rs p e := by
  unfold count_in_email
  rw [countP_filter_and]
  refine countP_congr_mem ?_
  intro r _
  cases hre : (r.flagged_email_id == e) with
  | true =>
    have : r.flagged_email_id = e := by simpa using hre
    have : (r.flagged_email_id == eid) = false := by
      simp only [beq_eq_false_iff_ne, ne_eq, this]
      exact he
    simp [hre, this]
  | false => simp [hre]

theorem count_in_email_erase_owner_self (rs : List ResultRow) (p : String) (eid : Nat) :
    count_in_email (rs.filter (fun r => !(r.flagged_email_id == eid))) p eid = 0 := by
  unfold count_in_email
  rw [countP_filter_and]
  rw [List.countP_eq_zero]
  intro r _ h
  rw [Bool.and_eq_true, Bool.and_eq_true] at h
  obtain ⟨⟨h1, -⟩, h2⟩ := h
  rw [h1] at h2
  simp at h2

theorem emails_containing_congr {es : List EmailRow} {rs rs' : List ResultRow}
    {p : String} (h : ∀ e ∈ es, count_in_email rs' p e.id = count_in_email rs p e.id) :
    emails_containing es rs' p = emails_containing es rs p := by
  unfold emails_containing
  refine countP_congr_mem ?_
  intro e he
  rw [h e he]

/-- `emails_affected` accounting when the findings of exactly one email
change: the affected-email count shifts by the membership change of that
one email. -/
theorem emails_containing_pivot {es : List EmailRow} {rs rs' : List ResultRow}
    {p : String} {eid : Nat}
    (hnd : (es.map (fun e => e.id)).Nodup)
    (hmem : eid ∈ es.map (fun e => e.id))
    (hsame : ∀ e', e' ≠ eid → count_in_email rs' p e' = count_in_email rs p e') :
    emails_containing es rs' p + (if 0 < count_in_email rs p eid then 1 else 0)
      = emails_containing es rs p + (if 0 < count_in_email rs' p eid then 1 else 0) := by
  induction es with
  | nil => simp at hmem
  | cons e es ih =>
    rw [List.map_cons, List.nodup_cons] at hnd
    rw [List.map_cons] at hmem
    unfold emails_containing
    rw [List.countP_cons, List.countP_cons]
    by_cases he : e.id = eid
    · have htail : emails_containing es rs' p = emails_containing es rs p := by
        refine emails_containing_congr ?_
        intro e' he'
        refine hsame e'.id ?_
        intro h
        rw [← he] at h
        exact hnd.1 (h ▸ List.mem_map_of_mem (fun x => x.id) he')
      unfold emails_containing at htail
      rw [htail, he]
      simp only [decide_eq_true_eq]
      omega
    · have hsame_e : count_in_email rs' p e.id = count_in_email rs p e.id :=
        hsame e.id he
      rw [hsame_e]
      rcases List.mem_cons.mp hmem with h | h
      · exact absurd h.symm he
      · have := ih hnd.2 h
        unfold emails_containing at this
        omega

theorem emails_containing_append_one {es : List EmailRow} {rs : List ResultRow}
    {p : String} {e0 : EmailRow} :
    emails_containing (es ++ [e0]) rs p
      = emails_containing es rs p + (if 0 < count_in_email rs p e0.id then 1 else 0) := by
  unfold emails_containing
  rw [List.countP_append]
  simp [List.countP_cons]

theorem emails_containing_filter_out {es : List EmailRow} {rs : List ResultRow}
    {p : String} {keep : EmailRow → Bool}
    (h : ∀ e ∈ es, keep e = false → count_in_email rs p e.id = 0) :
    emails_containing (es.filter keep) rs p = emails_containing es rs p := by
  unfold emails_containing
  rw [countP_filter_and]
  refine countP_congr_mem ?_
  intro e he
  cases hk : keep e with
  | true => simp [hk]
  | false =>
    have := h e he hk
    simp [hk, this]

theorem emails_containing_map_id {es : List EmailRow} {rs : List ResultRow}
    {p : String} {fn : EmailRow → EmailRow} (hid : ∀ e, (fn e).id = e.id) :
    emails_containing (es.map fn) rs p = emails_containing es rs p := by
  unfold emails_containing
  rw [List.countP_map]
  refine countP_congr_mem ?_
  intro e _
  simp [Function.comp, hid e]

theorem sum_map_indicator (es : List EmailRow) (x : Nat) :
    (es.map (fun e => if x == e.id then (1 : Nat) else 0)).sum
      = es.countP (fun e => e.id == x) := by
  induction es with
  | nil => rfl
  | cons e es ihe =>
    rw [List.map_cons, List.sum_cons, List.countP_cons, ihe]
    have hbeq : (x == e.id) = (e.id == x) := by
      cases hb : (e.id == x) with
      | true =>
        have : e.id = x := by simpa using hb
        simp [this]
      | false =>
        have : e.id ≠ x := by simpa using hb
        simp only [beq_eq_false_iff_ne, ne_eq]
        omega
    rw [hbeq]
    cases hb : (e.id == x) <;> simp [hb] <;> omega

/-- Under referential integrity and distinct email ids, the direct count
of `p`-findings equals the sum of the per-email counts over all stored
emails — the form in which the ledger invariant is specified. -/
theorem sum_counts_eq {es : List EmailRow} {rs : List ResultRow} {p : String}
    (hown : ∀ r ∈ rs, es.countP (fun e => e.id == r.flagged_email_id) = 1) :
    (es.map (fun e => count_in_email rs p e.id)).sum = occurrences_of rs p := by
  induction rs with
  | nil =>
    unfold occurrences_of count_in_email
    simp [List.countP_nil, sum_map_zero]
  | cons r rs ih =>
    have hown' : ∀ x ∈ rs, es.countP (fun e => e.id == x.flagged_email_id) = 1 :=
      fun x hx => hown x (List.mem_cons_of_mem r hx)
    have hmap : es.map (fun e => count_in_email (r :: rs) p e.id)
        = es.map (fun e => count_in_email rs p e.id
            + (if r.flagged_email_id == e.id && r.suspicious_phrase == p then 1 else 0)) := by
      refine List.map_congr_left ?_
      intro e _
      unfold count_in_email
      rw [List.countP_cons]
    rw [hmap, sum_map_add, ih hown']
    unfold occurrences_of
    rw [List.countP_cons]
    by_cases hp : (r.suspicious_phrase == p) = true
    · have hmap2 : es.map (fun e =>
          if r.flagged_email_id == e.id && r.suspicious_phrase == p then (1 : Nat) else 0)
          = es.map (fun e => if r.flagged_email_id == e.id then (1 : Nat) else 0) := by
        refine List.map_congr_left ?_
        intro e _
        rw [hp]
        simp
      rw [hmap2, sum_map_indicator, hown r (List.mem_cons_self r rs), hp]
      simp
    · have hp' : (r.suspicious_phrase == p) = false := by
        cases h : (r.suspicious_phrase == p)
        · rfl
        · exact absurd h hp
      have : (es.map (fun e =>
          if r.flagged_email_id == e.id && r.suspicious_phrase == p then 1 else 0)).sum
          = 0 := by
        have : es.map (fun e =>
            if r.flagged_email_id == e.id && r.suspicious_phrase == p then 1 else 0)
            = es.map (fun _ => 0) := by
          refine List.map_congr_left ?_
          intro e _
          simp [hp']
        rw [this, sum_map_zero]
      rw [this, hp']
      simp

/-! ### Characterization of the per-email count queries -/

theorem counts_by_phrase_keys (rs : List ResultRow) (eid : Nat) :
    (counts_by_phrase rs eid).map (fun pc => pc.1)
      = ((rs.filter (fun r => r.flagged_email_id == eid)).map
          (fun r => r.suspicious_phrase)).dedup := by
  unfold counts_by_phrase
  rw [List.map_map]
  exact List.map_id _

theorem counts_by_phrase_keys_nodup (rs : List ResultRow) (eid : Nat) :
    ((counts_by_phrase rs eid).map (fun pc => pc.1)).Nodup := by
  rw [counts_by_phrase_keys]
  exact List.nodup_dedup _

theorem mem_counts_keys_iff {rs : List ResultRow} {eid : Nat} {p : String} :
    p ∈ (counts_by_phrase rs eid).map (fun pc => pc.1)
      ↔ 0 < count_in_email rs p eid := by
  rw [counts_by_phrase_keys, List.mem_dedup, List.mem_map]
  unfold count_in_email
  rw [List.countP_pos]
  constructor
  · rintro ⟨r, hr, hrp⟩
    rw [List.mem_filter] at hr
    exact ⟨r, hr.1, by simp [hr.2, hrp]⟩
  · rintro ⟨r, hr, hrp⟩
    rw [Bool.and_eq_true] at hrp
    refine ⟨r, List.mem_filter.mpr ⟨hr, hrp.1⟩, by simpa using hrp.2⟩

theorem counts_by_phrase_val {rs : List ResultRow} {eid : Nat} :
    ∀ pc ∈ counts_by_phrase rs eid, pc.2 = count_in_email rs pc.1 eid := by
  intro pc hpc
  unfold counts_by_phrase at hpc
  rw [List.mem_map] at hpc
  obtain ⟨q, -, hq⟩ := hpc
  rw [← hq]

theorem alookup_counts_by_phrase (rs : List ResultRow) (eid : Nat) (p : String) :
    alookup (counts_by_phrase rs eid) p = count_in_email rs p eid := by
  unfold alookup
  cases hf : (counts_by_phrase rs eid).find? (fun pc => pc.1 == p) with
  | none =>
    have hnot : p ∉ (counts_by_phrase rs eid).map (fun pc => pc.1) := by
      intro hmem
      rw [List.mem_map] at hmem
      obtain ⟨pc, hpc, hpcp⟩ := hmem
      have := List.find?_eq_none.mp hf pc hpc
      simp [hpcp] at this
    have := mem_counts_keys_iff.not.mp hnot
    show 0 = count_in_email rs p eid
    omega
  | some pc =>
    have hpcp : pc.1 = p := by
      simpa using @List.find?_some (String × Nat) (fun pc => pc.1 == p) pc _ hf
    have hval := counts_by_phrase_val pc (List.mem_of_find?_eq_some hf)
    show pc.2 = count_in_email rs p eid
    rw [hval, hpcp]

theorem alookup_nil (p : String) : alookup [] p = 0 := rfl

theorem mem_all_phrases_iff {fs : List FindingInput} {old : List (String × Nat)}
    {p : String} :
    p ∈ all_phrases_of fs old ↔
      (0 < new_count_of fs p ∨ p ∈ old.map (fun pc => pc.1)) := by
  unfold all_phrases_of new_count_of
  rw [List.mem_dedup, List.mem_append, List.countP_pos]
  constructor
  · rintro (h | h)
    · left
      rw [List.mem_map] at h
      obtain ⟨f, hf, hfp⟩ := h
      exact ⟨f, hf, by simp [hfp]⟩
    · right; exact h
  · rintro (⟨f, hf, hfp⟩ | h)
    · left
      exact List.mem_map.mpr ⟨f, hf, by simpa using hfp⟩
    · right; exact h

theorem all_phrases_nodup (fs : List FindingInput) (old : List (String × Nat)) :
    (all_phrases_of fs old).Nodup := List.nodup_dedup _

/-! ### The reachability invariant -/

theorem inv_empty : Inv empty_db := by
  refine ⟨?_, ?_, ?_, ?_, ?_, ?_, ?_, ?_⟩ <;>
    simp [empty_db, stat_ok, occurrences_of, List.countP_nil]

/-- Referential integrity in the `countP` form needed by
`sum_counts_eq`. -/
theorem inv_owner_count {db : DB} (h : Inv db) :
    ∀ r ∈ db.analysis_results,
      db.flagged_emails.countP (fun e => e.id == r.flagged_email_id) = 1 :=
  fun r hr => countP_eq_one_of_nodup h.email_ids_nodup (h.owners_exist r hr)

/-- If the phrase occurs at all, some email contains it (referential
integrity), and conversely. -/
theorem ec_pos_iff {es : List EmailRow} {rs : List ResultRow}
    (hown : ∀ r ∈ rs, r.flagged_email_id ∈ es.map (fun e => e.id)) (p : String) :
    0 < emails_containing es rs p ↔ 0 < occurrences_of rs p := by
  unfold emails_containing
  rw [List.countP_pos]
  constructor
  · rintro ⟨e, he, hpe⟩
    rw [decide_eq_true_eq] at hpe
    unfold count_in_email at hpe
    rw [List.countP_pos] at hpe
    obtain ⟨r, hr, hrp⟩ := hpe
    rw [Bool.and_eq_true] at hrp
    unfold occurrences_of
    rw [List.countP_pos]
    exact ⟨r, hr, hrp.2⟩
  · intro hocc
    unfold occurrences_of at hocc
    rw [List.countP_pos] at hocc
    obtain ⟨r, hr, hrp⟩ := hocc
    have hmem := hown r hr
    rw [List.mem_map] at hmem
    obtain ⟨e, he, heid⟩ := hmem
    refine ⟨e, he, ?_⟩
    rw [decide_eq_true_eq]
    unfold count_in_email
    rw [List.countP_pos]
    exact ⟨r, hr, by simp [heid, hrp]⟩

theorem ec_zero_iff {es : List EmailRow} {rs : List ResultRow}
    (hown : ∀ r ∈ rs, r.flagged_email_id ∈ es.map (fun e => e.id)) (p : String) :
    emails_containing es rs p = 0 ↔ occurrences_of rs p = 0 := by
  have := ec_pos_iff hown p
  omega

theorem occurrences_zero_iff {db : DB} (h : Inv db) (p : String) :
    emails_containing db.flagged_emails db.analysis_results p = 0
      ↔ occurrences_of db.analysis_results p = 0 :=
  ec_zero_iff h.owners_exist p

/-! ### Folding the per-phrase loops -/

/-- Loop invariant of the per-phrase delta loop of
`_store_analysis_results`: processing a nodup list of phrases moves each
of them from the pre-state counts to the post-state counts while leaving
every other phrase untouched. -/
theorem fold_update_stat_ok
    (oldf newf T₀ A₀ T₁ A₁ : String → Nat) (inew : Bool) (now : Nat)
    (hinew : inew = true → ∀ p, oldf p = 0) :
    ∀ (l : List String) (st : List StatRow),
      l.Nodup →
      (st.map (fun r => r.suspicious_phrase)).Nodup →
      (∀ p ∈ l, 0 < oldf p ∨ 0 < newf p) →
      (∀ p ∈ l, oldf p ≤ T₀ p ∧ (A₀ p = 0 ↔ T₀ p = 0) ∧ (A₁ p = 0 ↔ T₁ p = 0) ∧
        ((T₁ p : Int) = (T₀ p : Int) - (oldf p : Int) + (newf p : Int)) ∧
        ((A₁ p : Int) = (A₀ p : Int) - (if 0 < oldf p then (1 : Int) else 0)
          + (if 0 < newf p then (1 : Int) else 0))) →
      (∀ p ∈ l, stat_ok st p (T₀ p) (A₀ p)) →
      (∀ p, p ∉ l → stat_ok st p (T₁ p) (A₁ p)) →
      ∀ p, stat_ok (l.foldl (fun acc q =>
          update_phrase_statistics_with_delta acc q (oldf q) (newf q) inew now) st)
        p (T₁ p) (A₁ p) := by
  intro l
  induction l with
  | nil =>
    intro st _ _ _ _ _ hout p
    exact hout p (by simp)
  | cons q l ih =>
    intro st hlnd hstnd h0 harith hin hout p
    rw [List.nodup_cons] at hlnd
    rw [List.foldl_cons]
    obtain ⟨ha1, ha2, ha3, ha4, ha5⟩ := harith q (List.mem_cons_self q l)
    obtain ⟨hq_ok, hq_frame⟩ := update_stat_ok hstnd
      (hin q (List.mem_cons_self q l)) (h0 q (List.mem_cons_self q l))
      ha1 ha2 ha4 ha5 ha3 (fun h => hinew h q)
    refine ih _ hlnd.2 (update_phrase_statistics_nodup hstnd)
      (fun p hp => h0 p (List.mem_cons_of_mem q hp))
      (fun p hp => harith p (List.mem_cons_of_mem q hp)) ?_ ?_ p
    · intro p' hp'
      have hne : p' ≠ q := fun h => hlnd.1 (h ▸ hp')
      have hfr := hq_frame p' hne
      have := hin p' (List.mem_cons_of_mem q hp')
      unfold stat_ok at this ⊢
      rw [hfr]
      exact this
    · intro p' hp'
      by_cases hpq : p' = q
      · subst hpq
        exact hq_ok
      · have hfr := hq_frame p' hpq
        have : p' ∉ q :: l := by
          intro h
          rcases List.mem_cons.mp h with h | h
          · exact hpq h
          · exact hp' h
        have hstok := hout p' this
        unfold stat_ok at hstok ⊢
        rw [hfr]
        exact hstok

/-- Loop invariant of the decrement loops of `_delete_flagged_email_impl`
and `_cleanup_old_data_impl`, phrased over the list of phrase keys with
their per-phrase decrements. -/
theorem fold_decrement_stat_ok
    (df af T₀ A₀ T₁ A₁ : String → Nat) :
    ∀ (l : List String) (st : List StatRow),
      l.Nodup →
      (st.map (fun r => r.suspicious_phrase)).Nodup →
      (∀ p ∈ l, df p ≤ T₀ p ∧ (A₁ p = 0 ↔ T₁ p = 0) ∧
        ((T₁ p : Int) = (T₀ p : Int) - (df p : Int)) ∧
        ((A₁ p : Int) = (A₀ p : Int) - (af p : Int))) →
      (∀ p ∈ l, stat_ok st p (T₀ p) (A₀ p)) →
      (∀ p, p ∉ l → stat_ok st p (T₁ p) (A₁ p)) →
      ∀ p, stat_ok (l.foldl (fun acc q =>
          decrement_phrase_statistics acc q (df q) (af q)) st) p (T₁ p) (A₁ p) := by
  intro l
  induction l with
  | nil =>
    intro st _ _ _ _ hout p
    exact hout p (by simp)
  | cons q l ih =>
    intro st hlnd hstnd harith hin hout p
    rw [List.nodup_cons] at hlnd
    rw [List.foldl_cons]
    obtain ⟨ha1, ha2, ha3, ha4⟩ := harith q (List.mem_cons_self q l)
    obtain ⟨hq_ok, hq_frame⟩ := decrement_stat_ok hstnd
      (hin q (List.mem_cons_self q l)) ha1 ha3 ha4 ha2
    refine ih _ hlnd.2 (decrement_phrase_statistics_nodup hstnd)
      (fun p hp => harith p (List.mem_cons_of_mem q hp)) ?_ ?_ p
    · intro p' hp'
      have hne : p' ≠ q := fun h => hlnd.1 (h ▸ hp')
      have hfr := hq_frame p' hne
      have := hin p' (List.mem_cons_of_mem q hp')
      unfold stat_ok at this ⊢
      rw [hfr]
      exact this
    · intro p' hp'
      by_cases hpq : p' = q
      · subst hpq
        exact hq_ok
      · have hfr := hq_frame p' hpq
        have : p' ∉ q :: l := by
          intro h
          rcases List.mem_cons.mp h with h | h
          · exact hpq h
          · exact hp' h
        have hstok := hout p' this
        unfold stat_ok at hstok ⊢
        rw [hfr]
        exact hstok

/-- The delete-email loop over the `(phrase, count)` pairs equals the
fold over the keys with the looked-up decrements. -/
theorem foldl_pairs_eq {df : String → Nat} :
    ∀ (l : List (String × Nat)) (st : List StatRow),
      (∀ pc ∈ l, pc.2 = df pc.1) →
      l.foldl (fun st (pc : String × Nat) =>
          decrement_phrase_statistics st pc.1 pc.2 1) st
        = (l.map (fun pc => pc.1)).foldl (fun st q =>
            decrement_phrase_statistics st q (df q) 1) st := by
  intro l
  induction l with
  | nil => intro st _; rfl
  | cons pc l ih =>
    intro st h
    rw [List.foldl_cons, List.map_cons, List.foldl_cons,
      h pc (List.mem_cons_self pc l)]
    exact ih _ (fun x hx => h x (List.mem_cons_of_mem pc hx))

/-- The cleanup loop over the `(phrase, occurrences, emails)` triples
equals the fold over the keys with the looked-up decrements. -/
theorem foldl_triples_eq {df af : String → Nat} :
    ∀ (l : List (String × Nat × Nat)) (st : List StatRow),
      (∀ t ∈ l, t.2.1 = df t.1 ∧ t.2.2 = af t.1) →
      l.foldl (fun st (t : String × Nat × Nat) =>
          decrement_phrase_statistics st t.1 t.2.1 t.2.2) st
        = (l.map (fun t => t.1)).foldl (fun st q =>
            decrement_phrase_statistics st q (df q) (af q)) st := by
  intro l
  induction l with
  | nil => intro st _; rfl
  | cons t l ih =>
    intro st h
    rw [List.foldl_cons, List.map_cons, List.foldl_cons,
      (h t (List.mem_cons_self t l)).1, (h t (List.mem_cons_self t l)).2]
    exact ih _ (fun x hx => h x (List.mem_cons_of_mem t hx))

theorem fold_update_nodup {oldf newf : String → Nat} {inew : Bool} {now : Nat} :
    ∀ (l : List String) (st : List StatRow),
      (st.map (fun r => r.suspicious_phrase)).Nodup →
      ((l.foldl (fun acc q =>
          update_phrase_statistics_with_delta acc q (oldf q) (newf q) inew now) st).map
        (fun r => r.suspicious_phrase)).Nodup := by
  intro l
  induction l with
  | nil => intro st h; exact h
  | cons q l ih =>
    intro st h
    rw [List.foldl_cons]
    exact ih _ (update_phrase_statistics_nodup h)

theorem fold_decrement_nodup {df af : String → Nat} :
    ∀ (l : List String) (st : List StatRow),
      (st.map (fun r => r.suspicious_phrase)).Nodup →
      ((l.foldl (fun acc q =>
          decrement_phrase_statistics acc q (df q) (af q)) st).map
        (fun r => r.suspicious_phrase)).Nodup := by
  intro l
  induction l with
  | nil => intro st h; exact h
  | cons q l ih =>
    intro st h
    rw [List.foldl_cons]
    exact ih _ (decrement_phrase_statistics_nodup h)

/-- The delta loop of `_store_analysis_results` restores full
well-formedness and ledger exactness, given a state whose ledger is
exact for the union of the remaining findings and the captured old
per-email counts of the target email (which itself currently owns no
findings). -/
theorem store_analysis_results_inv
    {dbx : DB} {eid : Nat} {fs : List FindingInput} {inew : Bool}
    {old : List (String × Nat)} {now : Nat} (oldc : String → Nat)
    (h_e_nd : (dbx.flagged_emails.map (fun e => e.id)).Nodup)
    (h_h_nd : (dbx.flagged_emails.map (fun e => e.email_hash)).Nodup)
    (h_r_nd : (dbx.analysis_results.map (fun r => r.id)).Nodup)
    (h_s_nd : (dbx.phrase_statistics.map (fun r => r.suspicious_phrase)).Nodup)
    (h_e_lt : ∀ e ∈ dbx.flagged_emails, e.id < dbx.next_email_id)
    (h_r_lt : ∀ r ∈ dbx.analysis_results, r.id < dbx.next_result_id)
    (h_own : ∀ r ∈ dbx.analysis_results,
      r.flagged_email_id ∈ dbx.flagged_emails.map (fun e => e.id))
    (heid : eid ∈ dbx.flagged_emails.map (fun e => e.id))
    (hlook : ∀ p, alookup old p = oldc p)
    (hkeys : ∀ p, p ∈ old.map (fun pc => pc.1) ↔ 0 < oldc p)
    (hcnt0 : ∀ p, count_in_email dbx.analysis_results p eid = 0)
    (hledger : ∀ p, stat_ok dbx.phrase_statistics p
      (occurrences_of dbx.analysis_results p + oldc p)
      (emails_containing dbx.flagged_emails dbx.analysis_results p
        + (if 0 < oldc p then 1 else 0)))
    (hpre_iff : ∀ p, emails_containing dbx.flagged_emails dbx.analysis_results p = 0
      ↔ occurrences_of dbx.analysis_results p = 0)
    (hinew : inew = true → ∀ p, oldc p = 0) :
    Inv (store_analysis_results dbx eid fs inew old now) := by
  obtain ⟨hres, hfe, hst, hne, hnr⟩ := insert_findings_spec eid fs now dbx
  have hres' : (store_analysis_results dbx eid fs inew old now).analysis_results
      = dbx.analysis_results ++ rendered_rows eid fs dbx.next_result_id now := by
    unfold store_analysis_results
    simpa using hres
  have hfe' : (store_analysis_results dbx eid fs inew old now).flagged_emails
      = dbx.flagged_emails := by
    unfold store_analysis_results
    simpa using hfe
  have hne' : (store_analysis_results dbx eid fs inew old now).next_email_id
      = dbx.next_email_id := by
    unfold store_analysis_results
    simpa using hne
  have hnr' : (store_analysis_results dbx eid fs inew old now).next_result_id
      = dbx.next_result_id + fs.length := by
    unfold store_analysis_results
    simpa using hnr
  have hstats : (store_analysis_results dbx eid fs inew old now).phrase_statistics
      = (all_phrases_of fs old).foldl
          (fun st p => update_phrase_statistics_with_delta st p
            (alookup old p) (new_count_of fs p) inew now) dbx.phrase_statistics := by
    unfold store_analysis_results
    simp only
    rw [hst]
  -- actual counts of the result state
  have hT1 : ∀ p, occurrences_of
      (dbx.analysis_results ++ rendered_rows eid fs dbx.next_result_id now) p
      = occurrences_of dbx.analysis_results p + new_count_of fs p := by
    intro p
    rw [occurrences_of_append, rendered_occurrences]
  have hcnt_other : ∀ p e', e' ≠ eid → count_in_email
      (dbx.analysis_results ++ rendered_rows eid fs dbx.next_result_id now) p e'
      = count_in_email dbx.analysis_results p e' := by
    intro p e' he'
    rw [count_in_email_append, rendered_count_in_email]
    simp [he']
  have hcnt_eid : ∀ p, count_in_email
      (dbx.analysis_results ++ rendered_rows eid fs dbx.next_result_id now) p eid
      = new_count_of fs p := by
    intro p
    rw [count_in_email_append, rendered_count_in_email, hcnt0]
    simp
  have hA1 : ∀ p, emails_containing dbx.flagged_emails
      (dbx.analysis_results ++ rendered_rows eid fs dbx.next_result_id now) p
      = emails_containing dbx.flagged_emails dbx.analysis_results p
        + (if 0 < new_count_of fs p then 1 else 0) := by
    intro p
    have := emails_containing_pivot h_e_nd heid (fun e' he' => hcnt_other p e' he')
    rw [hcnt0 p, hcnt_eid p] at this
    simpa using this
  refine ⟨?_, ?_, ?_, ?_, ?_, ?_, ?_, ?_⟩
  · rw [hfe']; exact h_e_nd
  · rw [hfe']; exact h_h_nd
  · rw [hres', List.map_append]
    rw [List.nodup_append]
    refine ⟨h_r_nd, rendered_ids_nodup eid fs now dbx.next_result_id, ?_⟩
    intro a ha hb
    rw [List.mem_map] at ha hb
    obtain ⟨r1, hr1, hid1⟩ := ha
    obtain ⟨r2, hr2, hid2⟩ := hb
    have h1 := h_r_lt r1 hr1
    have h2 := (rendered_mem eid fs now dbx.next_result_id r2 hr2).1
    omega
  · rw [hstats]
    exact fold_update_nodup _ _ h_s_nd
  · intro e he
    rw [hfe'] at he
    rw [hne']
    exact h_e_lt e he
  · intro r hr
    rw [hres'] at hr
    rw [hnr']
    rcases List.mem_append.mp hr with h | h
    · have := h_r_lt r h
      omega
    · have := (rendered_mem eid fs now dbx.next_result_id r h).2.1
      omega
  · intro r hr
    rw [hres'] at hr
    rw [hfe']
    rcases List.mem_append.mp hr with h | h
    · exact h_own r h
    · have := (rendered_mem eid fs now dbx.next_result_id r h).2.2.1
      rw [this]
      exact heid
  · intro p
    rw [hstats, hres', hfe']
    have happly := fold_update_stat_ok (fun q => alookup old q)
      (fun q => new_count_of fs q)
      (fun q => occurrences_of dbx.analysis_results q + oldc q)
      (fun q => emails_containing dbx.flagged_emails dbx.analysis_results q
        + (if 0 < oldc q then 1 else 0))
      (fun q => occurrences_of dbx.analysis_results q + new_count_of fs q)
      (fun q => emails_containing dbx.flagged_emails dbx.analysis_results q
        + (if 0 < new_count_of fs q then 1 else 0))
      inew now
      (fun h q => by
        show alookup old q = 0
        rw [hlook]
        exact hinew h q)
      (all_phrases_of fs old) dbx.phrase_statistics
      (all_phrases_nodup fs old) h_s_nd
      ?h0 ?harith ?hin ?hout p
    · rw [hT1 p, hA1 p]
      exact happly
    case h0 =>
      intro q hq
      show 0 < alookup old q ∨ 0 < new_count_of fs q
      rw [hlook]
      rcases mem_all_phrases_iff.mp hq with h | h
      · right; exact h
      · left; exact (hkeys q).mp h
    case harith =>
      intro q hq
      show alookup old q ≤ occurrences_of dbx.analysis_results q + oldc q ∧
        ((emails_containing dbx.flagged_emails dbx.analysis_results q
            + (if 0 < oldc q then 1 else 0) = 0)
          ↔ occurrences_of dbx.analysis_results q + oldc q = 0) ∧
        ((emails_containing dbx.flagged_emails dbx.analysis_results q
            + (if 0 < new_count_of fs q then 1 else 0) = 0)
          ↔ occurrences_of dbx.analysis_results q + new_count_of fs q = 0) ∧
        (((occurrences_of dbx.analysis_results q + new_count_of fs q : Nat) : Int)
          = ((occurrences_of dbx.analysis_results q + oldc q : Nat) : Int)
            - (alookup old q : Int) + (new_count_of fs q : Int)) ∧
        (((emails_containing dbx.flagged_emails dbx.analysis_results q
            + (if 0 < new_count_of fs q then 1 else 0) : Nat) : Int)
          = ((emails_containing dbx.flagged_emails dbx.analysis_results q
            + (if 0 < oldc q then 1 else 0) : Nat) : Int)
            - (if 0 < alookup old q then (1 : Int) else 0)
            + (if 0 < new_count_of fs q then (1 : Int) else 0))
      have hiff := hpre_iff q
      refine ⟨by rw [hlook]; omega, by split <;> omega,
        by split <;> omega, ?_, ?_⟩
      · rw [hlook]
        push_cast
        ring
      · rw [hlook]
        by_cases h1 : 0 < oldc q <;> by_cases h2 : 0 < new_count_of fs q <;>
          simp [h1, h2] <;> push_cast <;> ring
    case hin =>
      intro q hq
      exact hledger q
    case hout =>
      intro q hq
      have hnew0 : new_count_of fs q = 0 := by
        by_contra h
        exact hq (mem_all_phrases_iff.mpr (Or.inl (by omega)))
      have hold0 : oldc q = 0 := by
        by_contra h
        exact hq (mem_all_phrases_iff.mpr (Or.inr ((hkeys q).mpr (by omega))))
      have hst := hledger q
      rw [hold0] at hst
      show stat_ok dbx.phrase_statistics q
        (occurrences_of dbx.analysis_results q + new_count_of fs q)
        (emails_containing dbx.flagged_emails dbx.analysis_results q
          + (if 0 < new_count_of fs q then 1 else 0))
      rw [hnew0]
      simpa using hst

/-! ### Upsert characterization and invariant preservation of `store` -/

theorem upsert_found {db : DB} {hash subj fa ta : String} {date tot : Nat}
    {content : String} {now : Nat} {e : EmailRow}
    (hf : db.flagged_emails.find? (fun x => x.email_hash == hash) = some e) :
    upsert_flagged_email db hash subj fa ta date tot content now
      = ({ db with flagged_emails := db.flagged_emails.map (fun e' =>
            if e'.email_hash == hash then
              { e' with total_suspicious_findings := tot, flagged_at := now }
            else e') }, e.id, false) := by
  unfold upsert_flagged_email
  rw [hf]

theorem upsert_fresh {db : DB} {hash subj fa ta : String} {date tot : Nat}
    {content : String} {now : Nat}
    (hf : db.flagged_emails.find? (fun x => x.email_hash == hash) = none) :
    upsert_flagged_email db hash subj fa ta date tot content now
      = ({ db with
            flagged_emails := db.flagged_emails ++
              [⟨db.next_email_id, hash, subj, fa, ta, date, tot, content, now⟩]
            next_email_id := db.next_email_id + 1 },
          db.next_email_id, true) := by
  unfold upsert_flagged_email
  rw [hf]

theorem map_upsert_id (es : List EmailRow) (hash : String) (tot now : Nat) :
    (es.map (fun e' =>
      if e'.email_hash == hash then
        { e' with total_suspicious_findings := tot, flagged_at := now }
      else e')).map (fun e => e.id) = es.map (fun e => e.id) := by
  rw [List.map_map]
  refine List.map_congr_left ?_
  intro e _
  simp only [Function.comp]
  split <;> rfl

theorem map_upsert_hash (es : List EmailRow) (hash : String) (tot now : Nat) :
    (es.map (fun e' =>
      if e'.email_hash == hash then
        { e' with total_suspicious_findings := tot, flagged_at := now }
      else e')).map (fun e => e.email_hash) = es.map (fun e => e.email_hash) := by
  rw [List.map_map]
  refine List.map_congr_left ?_
  intro e _
  simp only [Function.comp]
  split <;> rfl

theorem count_in_email_fresh {es : List EmailRow} {rs : List ResultRow} {n : Nat}
    (hown : ∀ r ∈ rs, r.flagged_email_id ∈ es.map (fun e => e.id))
    (hlt : ∀ e ∈ es, e.id < n) (p : String) :
    count_in_email rs p n = 0 := by
  unfold count_in_email
  rw [List.countP_eq_zero]
  intro r hr hc
  rw [Bool.and_eq_true] at hc
  have : r.flagged_email_id = n := by simpa using hc.1
  have hmem := hown r hr
  rw [List.mem_map] at hmem
  obtain ⟨e, he, heid⟩ := hmem
  have := hlt e he
  omega

/-- `store` preserves the full invariant. -/
theorem inv_store {db : DB} (h : Inv db) (pe : ParsedEmail)
    (ar : List FindingInput) (now : Nat) :
    Inv (store_flagged_email_impl db pe ar now).1 := by
  unfold store_flagged_email_impl
  simp only []
  cases hfe : db.flagged_emails.find?
      (fun x => x.email_hash == generate_email_hash pe.raw_lines) with
  | some e =>
    rw [upsert_found hfe]
    simp only [Bool.false_eq_true, if_false]
    have he_mem : e ∈ db.flagged_emails := List.mem_of_find?_eq_some hfe
    have heid : e.id ∈ db.flagged_emails.map (fun x => x.id) :=
      List.mem_map_of_mem (fun x => x.id) he_mem
    refine store_analysis_results_inv
      (fun p => count_in_email db.analysis_results p e.id)
      ?_ ?_ ?_ ?_ ?_ ?_ ?_ ?_ ?_ ?_ ?_ ?_ ?_ ?_
    · simp only
      rw [map_upsert_id]
      exact h.email_ids_nodup
    · simp only
      rw [map_upsert_hash]
      exact h.email_hashes_nodup
    · simp only
      exact h.result_ids_nodup.sublist
        ((List.filter_sublist _).map (fun r : ResultRow => r.id))
    · exact h.stat_phrases_nodup
    · intro e' he'
      simp only at he'
      rw [List.mem_map] at he'
      obtain ⟨y, hy, hfy⟩ := he'
      have := h.email_ids_lt y hy
      rw [← hfy]
      have : (if (y.email_hash == generate_email_hash pe.raw_lines) = true then
          { y with total_suspicious_findings := ar.length, flagged_at := now }
        else y).id = y.id := by split <;> rfl
      simp only [this]
      exact h.email_ids_lt y hy
    · intro r hr
      simp only at hr
      exact h.result_ids_lt r (List.mem_of_mem_filter hr)
    · intro r hr
      simp only at hr
      simp only
      rw [map_upsert_id]
      exact h.owners_exist r (List.mem_of_mem_filter hr)
    · simp only
      rw [map_upsert_id]
      exact heid
    · intro p
      simp only
      exact alookup_counts_by_phrase db.analysis_results e.id p
    · intro p
      simp only
      exact mem_counts_keys_iff
    · intro p
      simp only
      exact count_in_email_erase_owner_self db.analysis_results p e.id
    · intro p
      simp only
      have hocc := occurrences_of_erase_owner db.analysis_results p e.id
      have hec : emails_containing db.flagged_emails
            (db.analysis_results.filter (fun r => !(r.flagged_email_id == e.id))) p
          + (if 0 < count_in_email db.analysis_results p e.id then 1 else 0)
          = emails_containing db.flagged_emails db.analysis_results p
          + (if 0 < count_in_email
              (db.analysis_results.filter (fun r => !(r.flagged_email_id == e.id)))
              p e.id then 1 else 0) :=
        emails_containing_pivot h.email_ids_nodup heid
          (fun e' he' => count_in_email_erase_owner db.analysis_results p he')
      rw [count_in_email_erase_owner_self] at hec
      simp only [Nat.lt_irrefl, if_neg (by omega : ¬ (0:Nat) < 0), Nat.add_zero] at hec
      have hemap : emails_containing (db.flagged_emails.map (fun e' =>
            if e'.email_hash == generate_email_hash pe.raw_lines then
              { e' with total_suspicious_findings := ar.length, flagged_at := now }
            else e'))
          (db.analysis_results.filter (fun r => !(r.flagged_email_id == e.id))) p
          = emails_containing db.flagged_emails
            (db.analysis_results.filter (fun r => !(r.flagged_email_id == e.id))) p := by
        refine emails_containing_map_id ?_
        intro x
        split <;> rfl
      rw [hemap, hocc, hec]
      exact h.ledger p
    · intro p
      simp only
      have hemap : emails_containing (db.flagged_emails.map (fun e' =>
            if e'.email_hash == generate_email_hash pe.raw_lines then
              { e' with total_suspicious_findings := ar.length, flagged_at := now }
            else e'))
          (db.analysis_results.filter (fun r => !(r.flagged_email_id == e.id))) p
          = emails_containing db.flagged_emails
            (db.analysis_results.filter (fun r => !(r.flagged_email_id == e.id))) p := by
        refine emails_containing_map_id ?_
        intro x
        split <;> rfl
      rw [hemap]
      refine ec_zero_iff ?_ p
      intro r hr
      exact h.owners_exist r (List.mem_of_mem_filter hr)
    · intro hcontra
      exact absurd hcontra (by simp)
  | none =>
    rw [upsert_fresh hfe]
    simp only [if_true]
    have hfresh : ∀ p, count_in_email db.analysis_results p db.next_email_id = 0 :=
      count_in_email_fresh h.owners_exist h.email_ids_lt
    refine store_analysis_results_inv (fun _ => 0)
      ?_ ?_ ?_ ?_ ?_ ?_ ?_ ?_ ?_ ?_ ?_ ?_ ?_ ?_
    · simp only
      rw [List.map_append, List.nodup_append]
      refine ⟨h.email_ids_nodup, by simp, ?_⟩
      intro a ha hb
      have : a = db.next_email_id := by simpa using hb
      subst this
      rw [List.mem_map] at ha
      obtain ⟨y, hy, hfy⟩ := ha
      have := h.email_ids_lt y hy
      omega
    · simp only
      rw [List.map_append, List.nodup_append]
      refine ⟨h.email_hashes_nodup, by simp, ?_⟩
      intro a ha hb
      have : a = generate_email_hash pe.raw_lines := by simpa using hb
      subst this
      rw [List.mem_map] at ha
      obtain ⟨y, hy, hfy⟩ := ha
      rw [List.find?_eq_none] at hfe
      exact hfe y hy (by simp [hfy])
    · exact h.result_ids_nodup
    · exact h.stat_phrases_nodup
    · intro e' he'
      simp only at he' ⊢
      rcases List.mem_append.mp he' with h' | h'
      · have := h.email_ids_lt e' h'
        omega
      · have : e' = (⟨db.next_email_id, generate_email_hash pe.raw_lines,
            py_slice pe.subject 500, py_slice pe.from_addr 200,
            py_slice pe.to_addr 200, pe.date.getD now, ar.length,
            pe.raw_lines, now⟩ : EmailRow) := by simpa using h'
        rw [this]
        simp
    · exact h.result_ids_lt
    · intro r hr
      simp only
      rw [List.map_append]
      exact List.mem_append_left _ (h.owners_exist r hr)
    · simp only
      rw [List.map_append]
      refine List.mem_append_right _ ?_
      simp
    · intro p
      rfl
    · intro p
      simp [alookup_nil]
    · intro p
      exact hfresh p
    · intro p
      simp only
      have hec : emails_containing (db.flagged_emails ++
            [⟨db.next_email_id, generate_email_hash pe.raw_lines,
              py_slice pe.subject 500, py_slice pe.from_addr 200,
              py_slice pe.to_addr 200, pe.date.getD now, ar.length,
              pe.raw_lines, now⟩]) db.analysis_results p
          = emails_containing db.flagged_emails db.analysis_results p := by
        rw [emails_containing_append_one]
        simp only
        rw [hfresh p]
        simp
      rw [hec]
      simpa using h.ledger p
    · intro p
      simp only
      have hec : emails_containing (db.flagged_emails ++
            [⟨db.next_email_id, generate_email_hash pe.raw_lines,
              py_slice pe.subject 500, py_slice pe.from_addr 200,
              py_slice pe.to_addr 200, pe.date.getD now, ar.length,
              pe.raw_lines, now⟩]) db.analysis_results p
          = emails_containing db.flagged_emails db.analysis_results p := by
        rw [emails_containing_append_one]
        simp only
        rw [hfresh p]
        simp
      rw [hec]
      exact occurrences_zero_iff h p
    · intro _ p
      rfl

/-! ### Helpers for the deletion operations -/

theorem eq_of_nodup_key {α β : Type} [BEq β] [LawfulBEq β] {l : List α}
    {key : α → β} (hnd : (l.map key).Nodup) :
    ∀ x ∈ l, ∀ y ∈ l, key x = key y → x = y := by
  induction l with
  | nil => intro x hx; simp at hx
  | cons a l ih =>
    rw [List.map_cons, List.nodup_cons] at hnd
    intro x hx y hy hkey
    rcases List.mem_cons.mp hx with hxa | hx' <;>
      rcases List.mem_cons.mp hy with hya | hy'
    · rw [hxa, hya]
    · exfalso
      refine hnd.1 ?_
      rw [← hxa, hkey]
      exact List.mem_map_of_mem key hy'
    · exfalso
      refine hnd.1 ?_
      rw [← hya, ← hkey]
      exact List.mem_map_of_mem key hx'
    · exact ih hnd.2 x hx' y hy' hkey

/-- With nodup row ids, the rows matching a present id are exactly the
found row: counting any predicate over them yields its indicator. -/
theorem countP_at_unique_id {rs : List ResultRow} {f : ResultRow}
    (hnd : (rs.map (fun r => r.id)).Nodup) (hf : f ∈ rs) (pred : ResultRow → Bool) :
    rs.countP (fun x => pred x && (x.id == f.id)) = if pred f then 1 else 0 := by
  induction rs with
  | nil => simp at hf
  | cons g rs ih =>
    rw [List.map_cons, List.nodup_cons] at hnd
    rw [List.countP_cons]
    rcases List.mem_cons.mp hf with hfg | hf'
    · have hzero : rs.countP (fun x => pred x && (x.id == f.id)) = 0 := by
        rw [List.countP_eq_zero]
        intro y hy hcy
        rw [Bool.and_eq_true] at hcy
        refine hnd.1 ?_
        rw [← hfg]
        have : y.id = f.id := by simpa using hcy.2
        rw [← this]
        exact List.mem_map_of_mem (fun r => r.id) hy
      rw [hzero, ← hfg]
      cases hp : pred g <;> simp [hp]
    · have hgid : (g.id == f.id) = false := by
        simp only [beq_eq_false_iff_ne, ne_eq]
        intro hh
        refine hnd.1 ?_
        rw [hh]
        exact List.mem_map_of_mem (fun r => r.id) hf'
      rw [ih hnd.2 hf']
      simp [hgid]

/-- Deleting one row by id: any count drops by that row's indicator. -/
theorem countP_erase_id {rs : List ResultRow} {f : ResultRow}
    (hnd : (rs.map (fun r => r.id)).Nodup) (hf : f ∈ rs) (pred : ResultRow → Bool) :
    (rs.filter (fun x => !(x.id == f.id))).countP pred
      + (if pred f then 1 else 0) = rs.countP pred := by
  rw [countP_filter_and]
  have hsplit := countP_split rs pred (fun x => x.id == f.id)
  rw [countP_at_unique_id hnd hf pred] at hsplit
  omega

/-- Distinct values of an owner list drawn from the emails' ids are
counted by membership over the emails. -/
theorem dedup_length_countP {es : List EmailRow} {S : List Nat}
    (hnd : (es.map (fun e => e.id)).Nodup)
    (hsub : ∀ x ∈ S, x ∈ es.map (fun e => e.id)) :
    S.dedup.length = es.countP (fun e => decide (e.id ∈ S)) := by
  rw [List.countP_eq_length_filter]
  have hperm : ((es.filter (fun e => decide (e.id ∈ S))).map (fun e => e.id)).Perm
      S.dedup := by
    rw [List.perm_ext_iff_of_nodup
      (hnd.sublist ((List.filter_sublist es).map (fun e => e.id)))
      (List.nodup_dedup S)]
    intro a
    rw [List.mem_dedup, List.mem_map]
    constructor
    · rintro ⟨e, he, heid⟩
      rw [List.mem_filter] at he
      rw [← heid]
      simpa using he.2
    · intro ha
      obtain ⟨e, he, heid⟩ := List.mem_map.mp (hsub a ha)
      refine ⟨e, List.mem_filter.mpr ⟨he, by simp [heid, ha]⟩, heid⟩
  have := hperm.length_eq
  rw [List.length_map] at this
  omega

/-- `delete_email` preserves the full invariant. -/
theorem inv_delete_email {db : DB} (h : Inv db) (eid : Nat) :
    Inv (delete_flagged_email_impl db eid).1 := by
  unfold delete_flagged_email_impl
  simp only []
  have hbridge : (counts_by_phrase db.analysis_results eid).foldl
      (fun st (pc : String × Nat) => decrement_phrase_statistics st pc.1 pc.2 1)
      db.phrase_statistics
    = ((counts_by_phrase db.analysis_results eid).map (fun pc => pc.1)).foldl
        (fun st q => decrement_phrase_statistics st q
          (count_in_email db.analysis_results q eid) 1) db.phrase_statistics :=
    foldl_pairs_eq _ _ (fun pc hpc => counts_by_phrase_val pc hpc)
  have howners1 : ∀ r ∈ db.analysis_results.filter
      (fun r => !(r.flagged_email_id == eid)),
      r.flagged_email_id ∈ db.flagged_emails.map (fun e => e.id) :=
    fun r hr => h.owners_exist r (List.mem_of_mem_filter hr)
  have hcnt_other : ∀ q e', e' ≠ eid →
      count_in_email (db.analysis_results.filter
        (fun r => !(r.flagged_email_id == eid))) q e'
      = count_in_email db.analysis_results q e' :=
    fun q e' he' => count_in_email_erase_owner db.analysis_results q he'
  have hcnt_self : ∀ q, count_in_email (db.analysis_results.filter
      (fun r => !(r.flagged_email_id == eid))) q eid = 0 :=
    fun q => count_in_email_erase_owner_self db.analysis_results q eid
  have hfold : ∀ p, stat_ok
      (((counts_by_phrase db.analysis_results eid).map (fun pc => pc.1)).foldl
        (fun st q => decrement_phrase_statistics st q
          (count_in_email db.analysis_results q eid) 1) db.phrase_statistics) p
      (occurrences_of (db.analysis_results.filter
        (fun r => !(r.flagged_email_id == eid))) p)
      (emails_containing db.flagged_emails (db.analysis_results.filter
        (fun r => !(r.flagged_email_id == eid))) p) := by
    refine fold_decrement_stat_ok
      (fun q => count_in_email db.analysis_results q eid) (fun _ => 1)
      (fun q => occurrences_of db.analysis_results q)
      (fun q => emails_containing db.flagged_emails db.analysis_results q)
      (fun q => occurrences_of (db.analysis_results.filter
        (fun r => !(r.flagged_email_id == eid))) q)
      (fun q => emails_containing db.flagged_emails (db.analysis_results.filter
        (fun r => !(r.flagged_email_id == eid))) q)
      _ _ (counts_by_phrase_keys_nodup db.analysis_results eid)
      h.stat_phrases_nodup ?_ ?_ ?_
    · intro q hq
      have hocc := occurrences_of_erase_owner db.analysis_results q eid
      have hpos : 0 < count_in_email db.analysis_results q eid :=
        mem_counts_keys_iff.mp hq
      have heid_mem : eid ∈ db.flagged_emails.map (fun e => e.id) := by
        unfold count_in_email at hpos
        rw [List.countP_pos] at hpos
        obtain ⟨r, hr, hrq⟩ := hpos
        rw [Bool.and_eq_true] at hrq
        have : r.flagged_email_id = eid := by simpa using hrq.1
        rw [← this]
        exact h.owners_exist r hr
      have hpivot := emails_containing_pivot h.email_ids_nodup heid_mem
        (fun e' he' => hcnt_other q e' he')
      rw [hcnt_self q] at hpivot
      show count_in_email db.analysis_results q eid
          ≤ occurrences_of db.analysis_results q ∧ _ ∧ _ ∧ _
      refine ⟨by omega, ?_, ?_, ?_⟩
      · exact ec_zero_iff howners1 q
      · show (_ : Int) = _
        push_cast
        omega
      · show (_ : Int) = _
        have h1 : (if 0 < count_in_email db.analysis_results q eid then (1 : Nat) else 0)
            = 1 := if_pos hpos
        have h2 : (if (0 : Nat) < 0 then (1 : Nat) else 0) = 0 := by simp
        rw [h1, h2] at hpivot
        have : emails_containing db.flagged_emails (db.analysis_results.filter
            (fun r => !(r.flagged_email_id == eid))) q + 1
            = emails_containing db.flagged_emails db.analysis_results q := by
          omega
        push_cast
        omega
    · intro q hq
      exact h.ledger q
    · intro q hq
      have hzero : count_in_email db.analysis_results q eid = 0 := by
        by_contra hc
        exact hq (mem_counts_keys_iff.mpr (by omega))
      have hocc := occurrences_of_erase_owner db.analysis_results q eid
      have hT : occurrences_of (db.analysis_results.filter
          (fun r => !(r.flagged_email_id == eid))) q
          = occurrences_of db.analysis_results q := by omega
      have hA : emails_containing db.flagged_emails (db.analysis_results.filter
          (fun r => !(r.flagged_email_id == eid))) q
          = emails_containing db.flagged_emails db.analysis_results q := by
        refine emails_containing_congr ?_
        intro e he
        by_cases heq : e.id = eid
        · rw [heq, hcnt_self q, hzero]
        · exact hcnt_other q e.id heq
      show stat_ok _ q (occurrences_of (db.analysis_results.filter
          (fun r => !(r.flagged_email_id == eid))) q)
        (emails_containing db.flagged_emails (db.analysis_results.filter
          (fun r => !(r.flagged_email_id == eid))) q)
      rw [hT, hA]
      exact h.ledger q
  refine ⟨?_, ?_, ?_, ?_, ?_, ?_, ?_, ?_⟩
  · exact h.email_ids_nodup.sublist
      ((List.filter_sublist _).map (fun e : EmailRow => e.id))
  · exact h.email_hashes_nodup.sublist
      ((List.filter_sublist _).map (fun e : EmailRow => e.email_hash))
  · exact h.result_ids_nodup.sublist
      ((List.filter_sublist _).map (fun r : ResultRow => r.id))
  · rw [hbridge]
    exact fold_decrement_nodup _ _ h.stat_phrases_nodup
  · intro e he
    exact h.email_ids_lt e (List.mem_of_mem_filter he)
  · intro r hr
    exact h.result_ids_lt r (List.mem_of_mem_filter hr)
  · intro r hr
    have hmem := howners1 r hr
    have hne : r.flagged_email_id ≠ eid := by
      have := List.mem_filter.mp hr
      simpa using this.2
    rw [List.mem_map] at hmem ⊢
    obtain ⟨e, he, heid⟩ := hmem
    refine ⟨e, List.mem_filter.mpr ⟨he, ?_⟩, heid⟩
    simp only [Bool.not_eq_eq_eq_not, Bool.not_true, beq_eq_false_iff_ne, ne_eq]
    intro hh
    rw [hh] at heid
    exact hne heid.symm
  · intro p
    rw [hbridge]
    have hec : emails_containing (db.flagged_emails.filter (fun e => !(e.id == eid)))
        (db.analysis_results.filter (fun r => !(r.flagged_email_id == eid))) p
        = emails_containing db.flagged_emails (db.analysis_results.filter
          (fun r => !(r.flagged_email_id == eid))) p := by
      refine emails_containing_filter_out ?_
      intro e he hk
      have : e.id = eid := by simpa using hk
      rw [this]
      exact hcnt_self p
    rw [hec]
    exact hfold p

/-- `delete_finding` preserves the full invariant. -/
theorem inv_delete_result {db : DB} (h : Inv db) (rid : Nat) :
    Inv (delete_analysis_result_impl db rid).1 := by
  unfold delete_analysis_result_impl
  cases hf : db.analysis_results.find? (fun r => r.id == rid) with
  | none => exact h
  | some f =>
    have hfmem : f ∈ db.analysis_results := List.mem_of_find?_eq_some hf
    have hfid : f.id = rid := by
      simpa using @List.find?_some ResultRow (fun r => r.id == rid) f _ hf
    have hdel : db.analysis_results.any (fun r => r.id == rid) = true :=
      List.any_eq_true.mpr ⟨f, hfmem, by simp [hfid]⟩
    rw [hdel]
    simp only [if_true]
    have herase : ∀ pred : ResultRow → Bool,
        (db.analysis_results.filter (fun x => !(x.id == rid))).countP pred
          + (if pred f then 1 else 0) = db.analysis_results.countP pred := by
      intro pred
      have := countP_erase_id h.result_ids_nodup hfmem pred
      rw [hfid] at this
      exact this
    have heid_mem : f.flagged_email_id ∈ db.flagged_emails.map (fun e => e.id) :=
      h.owners_exist f hfmem
    have hcur_pos : 0 < count_in_email db.analysis_results f.suspicious_phrase
        f.flagged_email_id := by
      unfold count_in_email
      rw [List.countP_pos]
      exact ⟨f, hfmem, by simp⟩
    have hocc_p0 : occurrences_of (db.analysis_results.filter (fun x => !(x.id == rid)))
        f.suspicious_phrase + 1 = occurrences_of db.analysis_results
        f.suspicious_phrase := by
      have := herase (fun r => r.suspicious_phrase == f.suspicious_phrase)
      simpa [occurrences_of] using this
    have hocc_q : ∀ q, q ≠ f.suspicious_phrase →
        occurrences_of (db.analysis_results.filter (fun x => !(x.id == rid))) q
          = occurrences_of db.analysis_results q := by
      intro q hq
      have := herase (fun r => r.suspicious_phrase == q)
      have hind : ((f.suspicious_phrase == q) = false) := by
        simp only [beq_eq_false_iff_ne, ne_eq]
        intro hh
        exact hq hh.symm
      unfold occurrences_of
      rw [← this]
      simp [hind]
    have hcnt : ∀ q e, ¬(e = f.flagged_email_id ∧ q = f.suspicious_phrase) →
        count_in_email (db.analysis_results.filter (fun x => !(x.id == rid))) q e
          = count_in_email db.analysis_results q e := by
      intro q e hne
      have := herase (fun r => r.flagged_email_id == e && r.suspicious_phrase == q)
      have hind : (f.flagged_email_id == e && f.suspicious_phrase == q) = false := by
        rw [Bool.and_eq_false_iff]
        by_cases h1 : f.flagged_email_id = e
        · right
          simp only [beq_eq_false_iff_ne, ne_eq]
          intro hh
          exact hne ⟨h1.symm, hh.symm⟩
        · left
          simp only [beq_eq_false_iff_ne, ne_eq]
          exact h1
      unfold count_in_email
      rw [← this]
      simp [hind]
    have hcnt_p0 : count_in_email (db.analysis_results.filter (fun x => !(x.id == rid)))
        f.suspicious_phrase f.flagged_email_id + 1
          = count_in_email db.analysis_results f.suspicious_phrase
            f.flagged_email_id := by
      have := herase (fun r => r.flagged_email_id == f.flagged_email_id &&
        r.suspicious_phrase == f.suspicious_phrase)
      simpa [count_in_email] using this
    have hpivot := emails_containing_pivot h.email_ids_nodup heid_mem
      (fun e' he' => hcnt f.suspicious_phrase e' (fun hc => he' hc.1))
    refine ⟨h.email_ids_nodup, h.email_hashes_nodup, ?_, ?_, h.email_ids_lt, ?_, ?_, ?_⟩
    · exact h.result_ids_nodup.sublist
        ((List.filter_sublist _).map (fun r : ResultRow => r.id))
    · exact decrement_phrase_statistics_nodup h.stat_phrases_nodup
    · intro r hr
      exact h.result_ids_lt r (List.mem_of_mem_filter hr)
    · intro r hr
      exact h.owners_exist r (List.mem_of_mem_filter hr)
    · intro p
      have hdec := @decrement_stat_ok db.phrase_statistics f.suspicious_phrase 1
        (if count_in_email db.analysis_results f.suspicious_phrase
            f.flagged_email_id == 1 then 1 else 0)
        (occurrences_of db.analysis_results f.suspicious_phrase)
        (emails_containing db.flagged_emails db.analysis_results f.suspicious_phrase)
        (occurrences_of (db.analysis_results.filter (fun x => !(x.id == rid)))
          f.suspicious_phrase)
        (emails_containing db.flagged_emails
          (db.analysis_results.filter (fun x => !(x.id == rid))) f.suspicious_phrase)
        h.stat_phrases_nodup (h.ledger f.suspicious_phrase) ?hod ?hT ?hA ?hiff
      case hod =>
        show 1 ≤ occurrences_of db.analysis_results f.suspicious_phrase
        omega
      case hT =>
        show ((occurrences_of (db.analysis_results.filter
            (fun x => !(x.id == rid))) f.suspicious_phrase : Nat) : Int) = _
        push_cast
        omega
      case hA =>
        show ((emails_containing db.flagged_emails (db.analysis_results.filter
            (fun x => !(x.id == rid))) f.suspicious_phrase : Nat) : Int) = _
        have h1 : (if 0 < count_in_email db.analysis_results f.suspicious_phrase
            f.flagged_email_id then (1 : Nat) else 0) = 1 := if_pos hcur_pos
        rw [h1] at hpivot
        by_cases hlast : count_in_email db.analysis_results f.suspicious_phrase
            f.flagged_email_id = 1
        · have hz : count_in_email (db.analysis_results.filter
              (fun x => !(x.id == rid))) f.suspicious_phrase f.flagged_email_id = 0 := by
            omega
          rw [hz] at hpivot
          have h2 : (if (0 : Nat) < 0 then (1 : Nat) else 0) = 0 := by simp
          rw [h2] at hpivot
          have hb : (if (count_in_email db.analysis_results f.suspicious_phrase
              f.flagged_email_id == 1) = true then (1 : Nat) else 0) = 1 := by
            simp [hlast]
          rw [hb]
          push_cast
          omega
        · have hpos2 : 0 < count_in_email (db.analysis_results.filter
              (fun x => !(x.id == rid))) f.suspicious_phrase f.flagged_email_id := by
            omega
          have h2 : (if 0 < count_in_email (db.analysis_results.filter
              (fun x => !(x.id == rid))) f.suspicious_phrase f.flagged_email_id
              then (1 : Nat) else 0) = 1 := if_pos hpos2
          rw [h2] at hpivot
          have hb : (if (count_in_email db.analysis_results f.suspicious_phrase
              f.flagged_email_id == 1) = true then (1 : Nat) else 0) = 0 := by
            simp [hlast]
          rw [hb]
          push_cast
          omega
      case hiff =>
        refine ec_zero_iff ?_ f.suspicious_phrase
        intro r hr
        exact h.owners_exist r (List.mem_of_mem_filter hr)
      by_cases hp : p = f.suspicious_phrase
      · subst hp
        exact hdec.1
      · have hfr := hdec.2 p hp
        have hT : occurrences_of (db.analysis_results.filter
            (fun x => !(x.id == rid))) p = occurrences_of db.analysis_results p :=
          hocc_q p hp
        have hA : emails_containing db.flagged_emails (db.analysis_results.filter
            (fun x => !(x.id == rid))) p
            = emails_containing db.flagged_emails db.analysis_results p := by
          refine emails_containing_congr ?_
          intro e he
          exact hcnt p e.id (fun hc => hp hc.2)
        have := h.ledger p
        unfold stat_ok at this ⊢
        rw [hfr, hT, hA]
        exact this

/-! ### Helpers for the cleanup flow -/

theorem owner_is_old_of_mem {es : List EmailRow} {cutoff : Nat} {e : EmailRow}
    (he : e ∈ es) (hold : decide (e.flagged_at < cutoff) = true) {r : ResultRow}
    (hid : r.flagged_email_id = e.id) : owner_is_old es cutoff r = true := by
  unfold owner_is_old
  rw [List.any_eq_true]
  exact ⟨e, he, by simp [hid, hold]⟩

theorem owner_not_old_of_mem {es : List EmailRow} {cutoff : Nat} {e : EmailRow}
    (hnd : (es.map (fun e => e.id)).Nodup)
    (he : e ∈ es) (hnew : decide (e.flagged_at < cutoff) = false) {r : ResultRow}
    (hid : r.flagged_email_id = e.id) : owner_is_old es cutoff r = false := by
  unfold owner_is_old
  rw [List.any_eq_false]
  intro e' he'
  intro hc
  rw [Bool.and_eq_true] at hc
  have h1 : e'.id = r.flagged_email_id := by simpa using hc.1
  have : e' = e := eq_of_nodup_key hnd e' he' e he (by rw [h1, hid])
  rw [this] at hc
  rw [hnew] at hc
  exact Bool.noConfusion hc.2

theorem cleanup_cnt_old {es : List EmailRow} {rs : List ResultRow} {cutoff : Nat}
    {e : EmailRow} (he : e ∈ es) (hold : decide (e.flagged_at < cutoff) = true)
    (q : String) :
    count_in_email (rs.filter (fun r => !owner_is_old es cutoff r)) q e.id = 0 := by
  unfold count_in_email
  rw [List.countP_eq_zero]
  intro r hr hc
  rw [List.mem_filter] at hr
  rw [Bool.and_eq_true] at hc
  have hid : r.flagged_email_id = e.id := by simpa using hc.1
  have := owner_is_old_of_mem he hold hid
  rw [this] at hr
  exact Bool.noConfusion hr.2

theorem cleanup_cnt_new {es : List EmailRow} {rs : List ResultRow} {cutoff : Nat}
    {e : EmailRow} (hnd : (es.map (fun e => e.id)).Nodup)
    (he : e ∈ es) (hnew : decide (e.flagged_at < cutoff) = false) (q : String) :
    count_in_email (rs.filter (fun r => !owner_is_old es cutoff r)) q e.id
      = count_in_email rs q e.id := by
  unfold count_in_email
  rw [countP_filter_and]
  refine countP_congr_mem ?_
  intro r _
  cases hro : (r.flagged_email_id == e.id) with
  | true =>
    have hid : r.flagged_email_id = e.id := by simpa using hro
    rw [owner_not_old_of_mem hnd he hnew hid]
    simp [hro]
  | false => simp [hro]

theorem cleanup_occ (es : List EmailRow) (rs : List ResultRow) (cutoff : Nat)
    (q : String) :
    occurrences_of (rs.filter (fun r => !owner_is_old es cutoff r)) q
      + occurrences_of (rs.filter (owner_is_old es cutoff)) q
      = occurrences_of rs q := by
  unfold occurrences_of
  rw [countP_filter_and, countP_filter_and]
  have := countP_split rs (fun r => r.suspicious_phrase == q) (owner_is_old es cutoff)
  omega

/-- The `COUNT(DISTINCT flagged_email_id)` aggregate counted over the
emails: the distinct old owners of `q`-findings are exactly the old
emails containing `q`. -/
theorem cleanup_af {es : List EmailRow} {rs : List ResultRow} {cutoff : Nat}
    (hnd : (es.map (fun e => e.id)).Nodup)
    (hown : ∀ r ∈ rs, r.flagged_email_id ∈ es.map (fun e => e.id)) (q : String) :
    (((rs.filter (owner_is_old es cutoff)).filter
        (fun r => r.suspicious_phrase == q)).map
      (fun r => r.flagged_email_id)).dedup.length
    = es.countP (fun e => decide (e.flagged_at < cutoff) &&
        decide (0 < count_in_email rs q e.id)) := by
  rw [dedup_length_countP hnd ?hsub]
  case hsub =>
    intro x hx
    rw [List.mem_map] at hx
    obtain ⟨r, hr, hrx⟩ := hx
    rw [← hrx]
    exact hown r (List.mem_of_mem_filter (List.mem_of_mem_filter hr))
  refine countP_congr_mem ?_
  intro e he
  cases hmem : decide (e.id ∈ ((rs.filter (owner_is_old es cutoff)).filter
      (fun r => r.suspicious_phrase == q)).map (fun r => r.flagged_email_id)) with
  | true =>
    rw [decide_eq_true_eq] at hmem
    rw [List.mem_map] at hmem
    obtain ⟨r, hr, hrid⟩ := hmem
    rw [List.mem_filter] at hr
    obtain ⟨hr1, hrq⟩ := hr
    rw [List.mem_filter] at hr1
    obtain ⟨hrs, hrold⟩ := hr1
    unfold owner_is_old at hrold
    rw [List.any_eq_true] at hrold
    obtain ⟨e', he', hce⟩ := hrold
    rw [Bool.and_eq_true] at hce
    have h1 : e'.id = r.flagged_email_id := by simpa using hce.1
    have hee : e' = e := eq_of_nodup_key hnd e' he' e he (by rw [h1, hrid])
    have hco : 0 < count_in_email rs q e.id := by
      unfold count_in_email
      rw [List.countP_pos]
      exact ⟨r, hrs, by simp [hrid, hrq]⟩
    have holde : decide (e.flagged_at < cutoff) = true := by
      rw [← hee]
      exact hce.2
    simp [holde, hco]
  | false =>
    rw [decide_eq_false_iff_not] at hmem
    cases hola : decide (e.flagged_at < cutoff) with
    | false => simp
    | true =>
      simp only [Bool.true_and]
      rw [eq_comm, decide_eq_false_iff_not]
      intro hco
      unfold count_in_email at hco
      rw [List.countP_pos] at hco
      obtain ⟨r, hrs, hrc⟩ := hco
      rw [Bool.and_eq_true] at hrc
      have hid : r.flagged_email_id = e.id := by simpa using hrc.1
      refine hmem ?_
      rw [List.mem_map]
      refine ⟨r, ?_, hid⟩
      rw [List.mem_filter]
      refine ⟨List.mem_filter.mpr ⟨hrs, owner_is_old_of_mem he hola hid⟩, hrc.2⟩

theorem cleanup_ec {es : List EmailRow} {rs : List ResultRow} {cutoff : Nat}
    (hnd : (es.map (fun e => e.id)).Nodup) (q : String) :
    emails_containing es (rs.filter (fun r => !owner_is_old es cutoff r)) q
      + es.countP (fun e => decide (e.flagged_at < cutoff) &&
          decide (0 < count_in_email rs q e.id))
      = emails_containing es rs q := by
  unfold emails_containing
  have hs1 := countP_split es
    (fun e => decide (0 < count_in_email
      (rs.filter (fun r => !owner_is_old es cutoff r)) q e.id))
    (fun e => decide (e.flagged_at < cutoff))
  have hs2 := countP_split es
    (fun e => decide (0 < count_in_email rs q e.id))
    (fun e => decide (e.flagged_at < cutoff))
  have hz : es.countP (fun e => decide (0 < count_in_email
      (rs.filter (fun r => !owner_is_old es cutoff r)) q e.id) &&
      decide (e.flagged_at < cutoff)) = 0 := by
    rw [List.countP_eq_zero]
    intro e he hc
    rw [Bool.and_eq_true] at hc
    obtain ⟨hc1, hc2⟩ := hc
    have hzero := @cleanup_cnt_old es rs cutoff e he hc2 q
    rw [decide_eq_true_eq] at hc1
    omega
  have hcongr : es.countP (fun e => decide (0 < count_in_email
        (rs.filter (fun r => !owner_is_old es cutoff r)) q e.id) &&
        !decide (e.flagged_at < cutoff))
      = es.countP (fun e => decide (0 < count_in_email rs q e.id) &&
          !decide (e.flagged_at < cutoff)) := by
    refine countP_congr_mem ?_
    intro e he
    cases ho : decide (e.flagged_at < cutoff) with
    | true => simp [ho]
    | false => rw [cleanup_cnt_new hnd he ho q]
  have hcomm : es.countP (fun e => decide (e.flagged_at < cutoff) &&
        decide (0 < count_in_email rs q e.id))
      = es.countP (fun e => decide (0 < count_in_email rs q e.id) &&
          decide (e.flagged_at < cutoff)) :=
    countP_congr_mem (fun e _ => Bool.and_comm _ _)
  omega

set_option maxHeartbeats 2000000 in
/-- `cleanup` preserves the full invariant. -/
theorem inv_cleanup {db : DB} (h : Inv db) (cutoff : Nat) :
    Inv (cleanup_old_data_impl db cutoff).1 := by
  unfold cleanup_old_data_impl
  simp only []
  have hvals : ∀ t ∈ cleanup_aggregates db.flagged_emails db.analysis_results cutoff,
      t.2.1 = occurrences_of (db.analysis_results.filter
        (owner_is_old db.flagged_emails cutoff)) t.1 ∧
      t.2.2 = (((db.analysis_results.filter
          (owner_is_old db.flagged_emails cutoff)).filter
            (fun r => r.suspicious_phrase == t.1)).map
          (fun r => r.flagged_email_id)).dedup.length := by
    intro t ht
    unfold cleanup_aggregates at ht
    rw [List.mem_map] at ht
    obtain ⟨p, -, hp⟩ := ht
    rw [← hp]
    exact ⟨rfl, rfl⟩
  have hkeys_eq : (cleanup_aggregates db.flagged_emails db.analysis_results
      cutoff).map (fun t => t.1)
      = ((db.analysis_results.filter
          (owner_is_old db.flagged_emails cutoff)).map
          (fun r => r.suspicious_phrase)).dedup := by
    unfold cleanup_aggregates
    rw [List.map_map]
    exact List.map_id _
  have hbridge := @foldl_triples_eq
    (fun q => occurrences_of (db.analysis_results.filter
      (owner_is_old db.flagged_emails cutoff)) q)
    (fun q => (((db.analysis_results.filter
        (owner_is_old db.flagged_emails cutoff)).filter
          (fun r => r.suspicious_phrase == q)).map
        (fun r => r.flagged_email_id)).dedup.length)
    (cleanup_aggregates db.flagged_emails db.analysis_results cutoff)
    db.phrase_statistics hvals
  rw [hkeys_eq] at hbridge
  have howners1 : ∀ r ∈ db.analysis_results.filter
      (fun r => !owner_is_old db.flagged_emails cutoff r),
      r.flagged_email_id ∈ db.flagged_emails.map (fun e => e.id) :=
    fun r hr => h.owners_exist r (List.mem_of_mem_filter hr)
  have hfold : ∀ p, stat_ok
      (((db.analysis_results.filter
          (owner_is_old db.flagged_emails cutoff)).map
          (fun r => r.suspicious_phrase)).dedup.foldl
        (fun st q => decrement_phrase_statistics st q
          (occurrences_of (db.analysis_results.filter
            (owner_is_old db.flagged_emails cutoff)) q)
          ((((db.analysis_results.filter
              (owner_is_old db.flagged_emails cutoff)).filter
                (fun r => r.suspicious_phrase == q)).map
              (fun r => r.flagged_email_id)).dedup.length)) db.phrase_statistics) p
      (occurrences_of (db.analysis_results.filter
        (fun r => !owner_is_old db.flagged_emails cutoff r)) p)
      (emails_containing db.flagged_emails (db.analysis_results.filter
        (fun r => !owner_is_old db.flagged_emails cutoff r)) p) := by
    refine fold_decrement_stat_ok
      (fun q => occurrences_of (db.analysis_results.filter
        (owner_is_old db.flagged_emails cutoff)) q)
      (fun q => (((db.analysis_results.filter
          (owner_is_old db.flagged_emails cutoff)).filter
            (fun r => r.suspicious_phrase == q)).map
          (fun r => r.flagged_email_id)).dedup.length)
      (fun q => occurrences_of db.analysis_results q)
      (fun q => emails_containing db.flagged_emails db.analysis_results q)
      (fun q => occurrences_of (db.analysis_results.filter
        (fun r => !owner_is_old db.flagged_emails cutoff r)) q)
      (fun q => emails_containing db.flagged_emails (db.analysis_results.filter
        (fun r => !owner_is_old db.flagged_emails cutoff r)) q)
      _ _ (List.nodup_dedup _) h.stat_phrases_nodup ?_ ?_ ?_
    · intro q hq
      have hocc := cleanup_occ db.flagged_emails db.analysis_results cutoff q
      have haf := @cleanup_af db.flagged_emails db.analysis_results cutoff
        h.email_ids_nodup h.owners_exist q
      have hec := @cleanup_ec db.flagged_emails db.analysis_results cutoff
        h.email_ids_nodup q
      refine ⟨?_, ec_zero_iff howners1 q, ?_, ?_⟩
      · show occurrences_of (db.analysis_results.filter
            (owner_is_old db.flagged_emails cutoff)) q
          ≤ occurrences_of db.analysis_results q
        omega
      · show ((occurrences_of (db.analysis_results.filter
            (fun r => !owner_is_old db.flagged_emails cutoff r)) q : Nat) : Int)
          = ((occurrences_of db.analysis_results q : Nat) : Int)
            - ((occurrences_of (db.analysis_results.filter
                (owner_is_old db.flagged_emails cutoff)) q : Nat) : Int)
        push_cast
        omega
      · show ((emails_containing db.flagged_emails (db.analysis_results.filter
            (fun r => !owner_is_old db.flagged_emails cutoff r)) q : Nat) : Int)
          = ((emails_containing db.flagged_emails db.analysis_results q : Nat) : Int)
            - (((((db.analysis_results.filter
                (owner_is_old db.flagged_emails cutoff)).filter
                  (fun r => r.suspicious_phrase == q)).map
                (fun r => r.flagged_email_id)).dedup.length : Nat) : Int)
        rw [haf]
        push_cast
        omega
    · intro q hq
      exact h.ledger q
    · intro q hq
      have hnotin : occurrences_of (db.analysis_results.filter
          (owner_is_old db.flagged_emails cutoff)) q = 0 := by
        by_contra hc
        refine hq ?_
        rw [List.mem_dedup]
        unfold occurrences_of at hc
        have : 0 < (db.analysis_results.filter
            (owner_is_old db.flagged_emails cutoff)).countP
            (fun r => r.suspicious_phrase == q) := by omega
        rw [List.countP_pos] at this
        obtain ⟨r, hr, hrq⟩ := this
        rw [List.mem_map]
        exact ⟨r, hr, by simpa using hrq⟩
      have hafz : (((db.analysis_results.filter
          (owner_is_old db.flagged_emails cutoff)).filter
            (fun r => r.suspicious_phrase == q)).map
          (fun r => r.flagged_email_id)).dedup.length = 0 := by
        have hfil : (db.analysis_results.filter
            (owner_is_old db.flagged_emails cutoff)).filter
              (fun r => r.suspicious_phrase == q) = [] := by
          rw [List.filter_eq_nil]
          intro r hr
          unfold occurrences_of at hnotin
          rw [List.countP_eq_zero] at hnotin
          exact fun hc => hnotin r hr hc
        rw [hfil]
        rfl
      have hocc := cleanup_occ db.flagged_emails db.analysis_results cutoff q
      have haf := @cleanup_af db.flagged_emails db.analysis_results cutoff
        h.email_ids_nodup h.owners_exist q
      have hec := @cleanup_ec db.flagged_emails db.analysis_results cutoff
        h.email_ids_nodup q
      rw [hafz] at haf
      have hT : occurrences_of (db.analysis_results.filter
          (fun r => !owner_is_old db.flagged_emails cutoff r)) q
          = occurrences_of db.analysis_results q := by omega
      have hA : emails_containing db.flagged_emails (db.analysis_results.filter
          (fun r => !owner_is_old db.flagged_emails cutoff r)) q
          = emails_containing db.flagged_emails db.analysis_results q := by omega
      show stat_ok _ q (occurrences_of (db.analysis_results.filter
          (fun r => !owner_is_old db.flagged_emails cutoff r)) q)
        (emails_containing db.flagged_emails (db.analysis_results.filter
          (fun r => !owner_is_old db.flagged_emails cutoff r)) q)
      rw [hT, hA]
      exact h.ledger q
  refine ⟨?_, ?_, ?_, ?_, ?_, ?_, ?_, ?_⟩
  · exact h.email_ids_nodup.sublist
      ((List.filter_sublist _).map (fun e : EmailRow => e.id))
  · exact h.email_hashes_nodup.sublist
      ((List.filter_sublist _).map (fun e : EmailRow => e.email_hash))
  · exact h.result_ids_nodup.sublist
      ((List.filter_sublist _).map (fun r : ResultRow => r.id))
  · rw [hbridge]
    exact fold_decrement_nodup _ _ h.stat_phrases_nodup
  · intro e he
    exact h.email_ids_lt e (List.mem_of_mem_filter he)
  · intro r hr
    exact h.result_ids_lt r (List.mem_of_mem_filter hr)
  · intro r hr
    have hmem := howners1 r hr
    have hrnew : owner_is_old db.flagged_emails cutoff r = false := by
      have := List.mem_filter.mp hr
      simpa using this.2
    rw [List.mem_map] at hmem ⊢
    obtain ⟨e, he, heid⟩ := hmem
    refine ⟨e, List.mem_filter.mpr ⟨he, ?_⟩, heid⟩
    cases ho : decide (e.flagged_at < cutoff) with
    | false => simp
    | true =>
      exfalso
      have := owner_is_old_of_mem he ho heid.symm
      rw [this] at hrnew
      exact Bool.noConfusion hrnew
  · intro p
    rw [hbridge]
    have hec2 : emails_containing (db.flagged_emails.filter
        (fun e => !decide (e.flagged_at < cutoff)))
        (db.analysis_results.filter
          (fun r => !owner_is_old db.flagged_emails cutoff r)) p
        = emails_containing db.flagged_emails (db.analysis_results.filter
          (fun r => !owner_is_old db.flagged_emails cutoff r)) p := by
      refine emails_containing_filter_out ?_
      intro e he hk
      have hold : decide (e.flagged_at < cutoff) = true := by
        cases ho : decide (e.flagged_at < cutoff) with
        | true => rfl
        | false => rw [ho] at hk; exact Bool.noConfusion hk
      exact cleanup_cnt_old he hold p
    rw [hec2]
    exact hfold p

/-- Every reachable committed state satisfies the full invariant. -/
theorem reachable_inv {db : DB} (h : Reachable db) : Inv db := by
  induction h with
  | init => exact inv_empty
  | store db pe ar now _ ih => exact inv_store ih pe ar now
  | delete_email db eid _ ih => exact inv_delete_email ih eid
  | delete_finding db rid _ ih => exact inv_delete_result ih rid
  | cleanup db cutoff _ ih => exact inv_cleanup ih cutoff

/-! ### Surface characterization of `store` (both upsert branches) -/

theorem store_on_existing {db : DB} {pe : ParsedEmail} {ar : List FindingInput}
    {now : Nat} {e : EmailRow}
    (hf : db.flagged_emails.find?
      (fun x => x.email_hash == generate_email_hash pe.raw_lines) = some e) :
    (store_flagged_email_impl db pe ar now).2 = e.id ∧
    (store_flagged_email_impl db pe ar now).1.flagged_emails
      = db.flagged_emails.map (fun e' =>
          if e'.email_hash == generate_email_hash pe.raw_lines then
            { e' with total_suspicious_findings := ar.length, flagged_at := now }
          else e') ∧
    (store_flagged_email_impl db pe ar now).1.analysis_results
      = (db.analysis_results.filter (fun r => !(r.flagged_email_id == e.id)))
          ++ rendered_rows e.id ar db.next_result_id now := by
  unfold store_flagged_email_impl
  simp only []
  rw [upsert_found hf]
  simp only [Bool.false_eq_true, if_false]
  obtain ⟨hres, hfe, -, -, -⟩ := insert_findings_spec e.id ar now
    { db with
      flagged_emails := db.flagged_emails.map (fun e' =>
        if e'.email_hash == generate_email_hash pe.raw_lines then
          { e' with total_suspicious_findings := ar.length, flagged_at := now }
        else e')
      analysis_results := db.analysis_results.filter
        (fun r => !(r.flagged_email_id == e.id)) }
  refine ⟨trivial, ?_, ?_⟩
  · unfold store_analysis_results
    simp only []
    rw [hfe]
  · unfold store_analysis_results
    simp only []
    rw [hres]

theorem store_on_fresh {db : DB} {pe : ParsedEmail} {ar : List FindingInput}
    {now : Nat}
    (hf : db.flagged_emails.find?
      (fun x => x.email_hash == generate_email_hash pe.raw_lines) = none) :
    (store_flagged_email_impl db pe ar now).2 = db.next_email_id ∧
    (store_flagged_email_impl db pe ar now).1.flagged_emails
      = db.flagged_emails ++
          [⟨db.next_email_id, generate_email_hash pe.raw_lines,
            py_slice pe.subject 500, py_slice pe.from_addr 200,
            py_slice pe.to_addr 200, pe.date.getD now, ar.length,
            pe.raw_lines, now⟩] ∧
    (store_flagged_email_impl db pe ar now).1.analysis_results
      = db.analysis_results ++ rendered_rows db.next_email_id ar db.next_result_id now := by
  unfold store_flagged_email_impl
  simp only []
  rw [upsert_fresh hf]
  simp only [if_true]
  obtain ⟨hres, hfe, -, -, -⟩ := insert_findings_spec db.next_email_id ar now
    { db with
      flagged_emails := db.flagged_emails ++
        [⟨db.next_email_id, generate_email_hash pe.raw_lines,
          py_slice pe.subject 500, py_slice pe.from_addr 200,
          py_slice pe.to_addr 200, pe.date.getD now, ar.length,
          pe.raw_lines, now⟩]
      next_email_id := db.next_email_id + 1 }
  refine ⟨trivial, ?_, ?_⟩
  · unfold store_analysis_results
    simp only []
    rw [hfe]
  · unfold store_analysis_results
    simp only []
    rw [hres]

/-- After any `store`, the stored table holds a row carrying the
content's fingerprint whose id is the returned id. -/
theorem store_finds_hash (db : DB) (pe : ParsedEmail) (ar : List FindingInput)
    (now : Nat) :
    ∃ e₁, (store_flagged_email_impl db pe ar now).1.flagged_emails.find?
        (fun x => x.email_hash == generate_email_hash pe.raw_lines) = some e₁ ∧
      e₁.id = (store_flagged_email_impl db pe ar now).2 ∧
      e₁.email_hash = generate_email_hash pe.raw_lines := by
  cases hf : db.flagged_emails.find?
      (fun x => x.email_hash == generate_email_hash pe.raw_lines) with
  | some e =>
    obtain ⟨hid, hemails, -⟩ := store_on_existing hf
    have hpred : (e.email_hash == generate_email_hash pe.raw_lines) = true :=
      @List.find?_some EmailRow
        (fun x => x.email_hash == generate_email_hash pe.raw_lines) e _ hf
    refine ⟨{ e with total_suspicious_findings := ar.length, flagged_at := now },
      ?_, ?_, ?_⟩
    · rw [hemails]
      rw [findq_map_comm (fun x => by split <;> rfl), hf]
      simp only [Option.map]
      rw [if_pos hpred]
    · rw [hid]
    · simpa using hpred
  | none =>
    obtain ⟨hid, hemails, -⟩ := store_on_fresh hf
    refine ⟨⟨db.next_email_id, generate_email_hash pe.raw_lines,
      py_slice pe.subject 500, py_slice pe.from_addr 200,
      py_slice pe.to_addr 200, pe.date.getD now, ar.length,
      pe.raw_lines, now⟩, ?_, ?_, rfl⟩
    · rw [hemails, findq_append_of_none _ hf]
      have : ((⟨db.next_email_id, generate_email_hash pe.raw_lines,
          py_slice pe.subject 500, py_slice pe.from_addr 200,
          py_slice pe.to_addr 200, pe.date.getD now, ar.length,
          pe.raw_lines, now⟩ : EmailRow).email_hash
            == generate_email_hash pe.raw_lines) = true := by simp
      simp only [List.find?_cons, this]
    · rw [hid]

/-! ### C1 -/

/-- C1: in every reachable committed state (after any sequence of
completed `store`, `delete_email`, `delete_finding` and `cleanup`
operations), every phrase that has a `phrase_statistics` row has
`total_occurrences` equal to the sum over all stored emails of its
per-email finding counts, and `emails_affected` equal to the number of
distinct stored emails owning at least one finding with that phrase. -/
theorem C1_ledger_exact (db : DB) (h : Reachable db) (p : String) (row : StatRow)
    (hrow : db.phrase_statistics.find?
      (fun r => r.suspicious_phrase == p) = some row) :
    row.total_occurrences
      = ((db.flagged_emails.map
          (fun e => count_in_email db.analysis_results p e.id)).sum : Int) ∧
    row.emails_affected
      = ((db.flagged_emails.countP
          (fun e => decide (0 < count_in_email db.analysis_results p e.id))) : Int) := by
  have hinv := reachable_inv h
  have hled := hinv.ledger p
  unfold stat_ok at hled
  rw [hrow] at hled
  obtain ⟨-, h1, h2⟩ := hled
  have hsum := @sum_counts_eq db.flagged_emails db.analysis_results p
    (inv_owner_count hinv)
  constructor
  · rw [h1, ← hsum]
  · exact h2

theorem C1_ledger_exact_witness :
    (⟨"u", 1, 1, 5⟩ : StatRow).total_occurrences
      = ((wit_db1.flagged_emails.map
          (fun e => count_in_email wit_db1.analysis_results "u" e.id)).sum : Int) ∧
    (⟨"u", 1, 1, 5⟩ : StatRow).emails_affected
      = ((wit_db1.flagged_emails.countP
          (fun e => decide (0 < count_in_email wit_db1.analysis_results "u" e.id))) : Int) :=
  C1_ledger_exact wit_db1 (Reachable.store empty_db wit_pe [wit_f] 5 Reachable.init)
    "u" ⟨"u", 1, 1, 5⟩ (by decide)

/-! ### C4 -/

/-- C4: `_execute_in_transaction` makes every public mutating operation
atomic — each of `store_flagged_email`, `delete_flagged_email`,
`delete_analysis_result`, `update_flagged_email` and `cleanup_old_data`
is this combinator applied to its `_impl`.  If the operation raises, the
same failure is re-raised and the returned state is exactly the
pre-call state (email store, finding store and ledger all rolled back);
if it returns normally, the whole post-operation state is committed. -/
theorem C4_transaction {α ε : Type} (op : DB → Except ε (α × DB)) (db : DB) :
    (∀ e : ε, op db = Except.error e →
      execute_in_transaction op db = (Except.error e, db)) ∧
    (∀ (a : α) (db' : DB), op db = Except.ok (a, db') →
      execute_in_transaction op db = (Except.ok a, db')) := by
  constructor
  · intro e he
    unfold execute_in_transaction
    rw [he]
  · intro a db' hok
    unfold execute_in_transaction
    rw [hok]

theorem C4_transaction_witness :
    execute_in_transaction (fun _ : DB => (Except.error 7 : Except Nat (Nat × DB)))
      empty_db = (Except.error 7, empty_db) :=
  (C4_transaction (fun _ : DB => (Except.error 7 : Except Nat (Nat × DB)))
    empty_db).1 7 rfl

/-! ### C5 -/

theorem findq_self_of_nodup {l : List StatRow}
    (hnd : (l.map (fun r => r.suspicious_phrase)).Nodup) {r : StatRow} (hr : r ∈ l) :
    l.find? (fun x => x.suspicious_phrase == r.suspicious_phrase) = some r := by
  induction l with
  | nil => simp at hr
  | cons a l ih =>
    rw [List.map_cons, List.nodup_cons] at hnd
    rcases List.mem_cons.mp hr with hra | hr'
    · have hpa : (a.suspicious_phrase == r.suspicious_phrase) = true := by
        rw [hra]
        simp
      simp only [List.find?_cons, hpa]
      rw [hra]
    · have hpa : (a.suspicious_phrase == r.suspicious_phrase) = false := by
        simp only [beq_eq_false_iff_ne, ne_eq]
        intro hh
        refine hnd.1 ?_
        rw [hh]
        exact List.mem_map_of_mem (fun x => x.suspicious_phrase) hr'
      simp only [List.find?_cons, hpa]
      exact ih hnd.2 hr'

/-- C5: both ledger writers finish with the shared retirement `DELETE`,
so after any applied delta no surviving row of the touched phrase has
both counters at 0 or below ((a) the decrement path unconditionally,
(b) the upsert path whenever some delta was negative), and consequently
(c) no reachable committed state contains any ledger row whose two
counters are not both strictly positive. -/
theorem C5_retire :
    (∀ (st : List StatRow) (p : String) (od ad : Nat) (r' : StatRow),
      r' ∈ decrement_phrase_statistics st p od ad → r'.suspicious_phrase = p →
      0 < r'.total_occurrences ∨ 0 < r'.emails_affected) ∧
    (∀ (st : List StatRow) (p : String) (oldc newc : Nat) (inew : Bool) (now : Nat)
      (r' : StatRow),
      ((newc : Int) - (oldc : Int) < 0 ∨
        emails_affected_delta_of inew oldc newc < 0) →
      r' ∈ update_phrase_statistics_with_delta st p oldc newc inew now →
      r'.suspicious_phrase = p →
      0 < r'.total_occurrences ∨ 0 < r'.emails_affected) ∧
    (∀ db : DB, Reachable db → ∀ r ∈ db.phrase_statistics,
      0 < r.total_occurrences ∧ 0 < r.emails_affected) := by
  refine ⟨?_, ?_, ?_⟩
  · intro st p od ad r' hr' hp
    unfold decrement_phrase_statistics at hr'
    rw [List.mem_filter] at hr'
    have hkeep := hr'.2
    by_contra hcon
    push_neg at hcon
    have hkf : stat_keep p r' = false :=
      stat_keep_false_iff.mpr ⟨hp, by omega, by omega⟩
    rw [hkf] at hkeep
    exact Bool.noConfusion hkeep
  · intro st p oldc newc inew now r' hcond hr' hp
    unfold update_phrase_statistics_with_delta at hr'
    rw [if_pos hcond] at hr'
    rw [List.mem_filter] at hr'
    have hkeep := hr'.2
    by_contra hcon
    push_neg at hcon
    have hkf : stat_keep p r' = false :=
      stat_keep_false_iff.mpr ⟨hp, by omega, by omega⟩
    rw [hkf] at hkeep
    exact Bool.noConfusion hkeep
  · intro db h r hr
    have hinv := reachable_inv h
    have hfind := findq_self_of_nodup hinv.stat_phrases_nodup hr
    have hled := hinv.ledger r.suspicious_phrase
    unfold stat_ok at hled
    rw [hfind] at hled
    obtain ⟨hT, h1, h2⟩ := hled
    constructor
    · rw [h1]
      exact_mod_cast hT
    · rw [h2]
      have := (ec_pos_iff hinv.owners_exist r.suspicious_phrase).mpr hT
      exact_mod_cast this

theorem C5_retire_witness :
    0 < (⟨"u", (2 : Int), (2 : Int), 7⟩ : StatRow).total_occurrences ∨
    0 < (⟨"u", (2 : Int), (2 : Int), 7⟩ : StatRow).emails_affected :=
  C5_retire.1 [⟨"u", 3, 2, 7⟩] "u" 1 0 ⟨"u", 2, 2, 7⟩ (by decide) rfl

/-! ### C10 -/

/-- C10: metadata is silently sliced on ingestion — a freshly inserted
email row stores the subject cut to 500 characters and the sender and
recipient cut to 200 each, while the dedup fingerprint and the stored
content use the untruncated raw content; and every finding row inserted
by a store carries its phrase cut to 500 characters and its segment
label cut to 100. -/
theorem C10_truncation (db : DB) (pe : ParsedEmail) (ar : List FindingInput)
    (now : Nat) :
    (db.flagged_emails.find?
        (fun x => x.email_hash == generate_email_hash pe.raw_lines) = none →
      ∃ row : EmailRow, (store_flagged_email_impl db pe ar now).1.flagged_emails
          = db.flagged_emails ++ [row] ∧
        row.email_subject = py_slice pe.subject 500 ∧
        row.email_from = py_slice pe.from_addr 200 ∧
        row.email_to = py_slice pe.to_addr 200 ∧
        row.email_hash = generate_email_hash pe.raw_lines ∧
        row.email_content = pe.raw_lines) ∧
    ((store_flagged_email_impl db pe ar now).1.analysis_results
        = db.analysis_results ++ rendered_rows (store_flagged_email_impl db pe ar now).2
            ar db.next_result_id now ∨
      (store_flagged_email_impl db pe ar now).1.analysis_results
        = db.analysis_results.filter
            (fun r => !(r.flagged_email_id == (store_flagged_email_impl db pe ar now).2))
          ++ rendered_rows (store_flagged_email_impl db pe ar now).2
              ar db.next_result_id now) ∧
    (∀ r ∈ rendered_rows (store_flagged_email_impl db pe ar now).2
        ar db.next_result_id now,
      ∃ f ∈ ar, r.suspicious_phrase = py_slice f.phrase 500 ∧
        r.segment_type = py_slice f.segment 100) := by
  refine ⟨?_, ?_, ?_⟩
  · intro hf
    obtain ⟨-, hemails, -⟩ := store_on_fresh hf
    exact ⟨_, hemails, rfl, rfl, rfl, rfl, rfl⟩
  · cases hf : db.flagged_emails.find?
        (fun x => x.email_hash == generate_email_hash pe.raw_lines) with
    | some e =>
      right
      obtain ⟨hid, -, hres⟩ := store_on_existing hf
      rw [hres, hid]
    | none =>
      left
      obtain ⟨hid, -, hres⟩ := store_on_fresh hf
      rw [hres, hid]
  · intro r hr
    obtain ⟨-, -, -, -, f, hfmem, h5, h6⟩ :=
      rendered_mem (store_flagged_email_impl db pe ar now).2 ar now
        db.next_result_id r hr
    exact ⟨f, hfmem, h5, h6⟩

theorem C10_truncation_witness :
    ∃ row : EmailRow, wit_db1.flagged_emails = empty_db.flagged_emails ++ [row] ∧
      row.email_subject = py_slice wit_pe.subject 500 ∧
      row.email_from = py_slice wit_pe.from_addr 200 ∧
      row.email_to = py_slice wit_pe.to_addr 200 ∧
      row.email_hash = generate_email_hash wit_pe.raw_lines ∧
      row.email_content = wit_pe.raw_lines :=
  (C10_truncation empty_db wit_pe [wit_f] 5).1 (by decide)

/-! ### C2 -/

/-- Value effect of one ledger upsert on an existing row of the phrase:
the counters move by exactly the computed deltas, unless both results
dropped to 0 or below and the row was retired. -/
theorem update_effect {st : List StatRow} {p : String} {oldc newc : Nat}
    {inew : Bool} {now : Nat}
    (hnd : (st.map (fun r => r.suspicious_phrase)).Nodup)
    {r : StatRow} (hf : st.find? (fun x => x.suspicious_phrase == p) = some r) :
    (∀ r', (update_phrase_statistics_with_delta st p oldc newc inew now).find?
        (fun x => x.suspicious_phrase == p) = some r' →
      r'.total_occurrences = r.total_occurrences + ((newc : Int) - (oldc : Int)) ∧
      r'.emails_affected
        = r.emails_affected + emails_affected_delta_of inew oldc newc) ∧
    ((update_phrase_statistics_with_delta st p oldc newc inew now).find?
        (fun x => x.suspicious_phrase == p) = none →
      r.total_occurrences + ((newc : Int) - (oldc : Int)) ≤ 0 ∧
      r.emails_affected + emails_affected_delta_of inew oldc newc ≤ 0) := by
  have hfup := @su_find_p st p oldc newc inew now r hf
  unfold update_phrase_statistics_with_delta
  by_cases hcond : ((newc : Int) - (oldc : Int) < 0 ∨
      emails_affected_delta_of inew oldc newc < 0)
  · rw [if_pos hcond]
    cases hkeep : stat_keep p (su_row r oldc newc inew now) with
    | true =>
      have hfind := findq_filter_of_found hfup hkeep
      constructor
      · intro r' hr'
        rw [hfind] at hr'
        have := Option.some.inj hr'
        rw [← this]
        exact ⟨rfl, rfl⟩
      · intro hnone
        rw [hfind] at hnone
        exact absurd hnone (by simp)
    | false =>
      have hnone : ((stat_upsert st p oldc newc inew now).filter
          (stat_keep p)).find? (fun x => x.suspicious_phrase == p) = none := by
        refine findq_filter_of_removed ?_
        intro x hx hxp
        have hxp' : x.suspicious_phrase = p := by simpa using hxp
        rw [su_mem_p hnd hf x hx hxp']
        exact hkeep
      constructor
      · intro r' hr'
        rw [hnone] at hr'
        exact absurd hr' (by simp)
      · intro _
        obtain ⟨-, h1, h2⟩ := stat_keep_false_iff.mp hkeep
        exact ⟨h1, h2⟩
  · rw [if_neg hcond]
    constructor
    · intro r' hr'
      rw [hfup] at hr'
      have := Option.some.inj hr'
      rw [← this]
      exact ⟨rfl, rfl⟩
    · intro hnone
      rw [hfup] at hnone
      exact absurd hnone (by simp)

/-- C2: (a) under the caller contract `is_new_email → old_count = 0`,
the code's `emails_affected` delta equals the spec's piecewise formula;
(b) one upsert moves the existing ledger row of the phrase by exactly
`new_count - old_count` and that delta (retiring it when both results
are ≤ 0); (c) the re-analysis loop iterates over exactly the phrases of
the old or new per-email counts; (d) phrases absent from an old-counts
dictionary look up as `old_count = 0` (and `new_count_of` is 0 for
phrases absent from the batch by definition). -/
theorem C2_delta_formula :
    (∀ (inew : Bool) (oldc newc : Nat), (inew = true → oldc = 0) →
      emails_affected_delta_of inew oldc newc
        = spec_emails_affected_delta oldc newc) ∧
    (∀ (st : List StatRow) (p : String) (oldc newc : Nat) (inew : Bool) (now : Nat),
      (st.map (fun r => r.suspicious_phrase)).Nodup →
      ∀ r, st.find? (fun x => x.suspicious_phrase == p) = some r →
      (∀ r', (update_phrase_statistics_with_delta st p oldc newc inew now).find?
          (fun x => x.suspicious_phrase == p) = some r' →
        r'.total_occurrences = r.total_occurrences + ((newc : Int) - (oldc : Int)) ∧
        r'.emails_affected
          = r.emails_affected + emails_affected_delta_of inew oldc newc) ∧
      ((update_phrase_statistics_with_delta st p oldc newc inew now).find?
          (fun x => x.suspicious_phrase == p) = none →
        r.total_occurrences + ((newc : Int) - (oldc : Int)) ≤ 0 ∧
        r.emails_affected + emails_affected_delta_of inew oldc newc ≤ 0)) ∧
    (∀ (fs : List FindingInput) (old : List (String × Nat)) (p : String),
      p ∈ all_phrases_of fs old ↔
        (0 < new_count_of fs p ∨ p ∈ old.map (fun pc => pc.1))) ∧
    (∀ (old : List (String × Nat)) (p : String),
      p ∉ old.map (fun pc => pc.1) → alookup old p = 0) := by
  refine ⟨?_, ?_, ?_, ?_⟩
  · intro inew oldc newc h
    rw [delta_eq inew oldc newc h]
    unfold spec_emails_affected_delta
    split_ifs <;> omega
  · intro st p oldc newc inew now hnd r hf
    exact update_effect hnd hf
  · intro fs old p
    exact mem_all_phrases_iff
  · intro old p hp
    unfold alookup
    cases hfq : old.find? (fun pc => pc.1 == p) with
    | none => rfl
    | some pc =>
      exfalso
      refine hp ?_
      have hpc : pc.1 = p := by
        simpa using @List.find?_some (String × Nat) (fun pc => pc.1 == p) pc _ hfq
      rw [← hpc]
      exact List.mem_map_of_mem (fun pc => pc.1) (List.mem_of_find?_eq_some hfq)

theorem C2_delta_formula_witness :
    (⟨"u", (4 : Int), (2 : Int), 9⟩ : StatRow).total_occurrences
      = (⟨"u", (3 : Int), (2 : Int), 7⟩ : StatRow).total_occurrences
        + ((2 : Int) - (1 : Int)) ∧
    (⟨"u", (4 : Int), (2 : Int), 9⟩ : StatRow).emails_affected
      = (⟨"u", (3 : Int), (2 : Int), 7⟩ : StatRow).emails_affected
        + emails_affected_delta_of false 1 2 :=
  (C2_delta_formula.2.1 [⟨"u", 3, 2, 7⟩] "u" 1 2 false 9 (by decide)
    ⟨"u", 3, 2, 7⟩ (by decide)).1 ⟨"u", 4, 2, 9⟩ (by decide)

/-! ### C8 -/

theorem decrement_frame (st : List StatRow) (p : String) (od ad : Nat)
    {q : String} (hq : q ≠ p) :
    (decrement_phrase_statistics st p od ad).find?
        (fun x => x.suspicious_phrase == q)
      = st.find? (fun x => x.suspicious_phrase == q) := by
  unfold decrement_phrase_statistics
  rw [findq_filter_of_kept ?hkept]
  case hkept =>
    intro x hx hxq
    refine stat_keep_true_of_ne ?_
    have hxq' : x.suspicious_phrase = q := by simpa using hxq
    rw [hxq']
    exact hq
  rw [findq_map_comm (fun x => by split <;> rfl)]
  cases hfq : st.find? (fun x => x.suspicious_phrase == q) with
  | none => rfl
  | some y =>
    have hyq : y.suspicious_phrase = q := by
      simpa using @List.find?_some StatRow (fun x => x.suspicious_phrase == q) y st hfq
    simp only [Option.map]
    rw [if_neg (by simp [hyq]; intro h; exact hq (h.symm ▸ rfl))]

/-- Value effect of one ledger decrement on an existing row of the
phrase, mirroring `update_effect`. -/
theorem decrement_effect {st : List StatRow} {p : String} {od ad : Nat}
    (hnd : (st.map (fun r => r.suspicious_phrase)).Nodup)
    {r : StatRow} (hf : st.find? (fun x => x.suspicious_phrase == p) = some r) :
    (∀ r', (decrement_phrase_statistics st p od ad).find?
        (fun x => x.suspicious_phrase == p) = some r' →
      r'.total_occurrences = r.total_occurrences - (od : Int) ∧
      r'.emails_affected = r.emails_affected - (ad : Int)) ∧
    ((decrement_phrase_statistics st p od ad).find?
        (fun x => x.suspicious_phrase == p) = none →
      r.total_occurrences - (od : Int) ≤ 0 ∧
      r.emails_affected - (ad : Int) ≤ 0) := by
  have hfmap := @dec_map_find_p st p od ad r hf
  have hrp : r.suspicious_phrase = p := by
    simpa using @List.find?_some StatRow (fun x => x.suspicious_phrase == p) r st hf
  unfold decrement_phrase_statistics
  cases hkeep : stat_keep p (dec_row r od ad) with
  | true =>
    have hfind := findq_filter_of_found hfmap hkeep
    constructor
    · intro r' hr'
      rw [hfind] at hr'
      have := Option.some.inj hr'
      rw [← this]
      exact ⟨rfl, rfl⟩
    · intro hnone
      rw [hfind] at hnone
      exact absurd hnone (by simp)
  | false =>
    have hnone : ((st.map (fun x =>
        if x.suspicious_phrase == p then
          { x with
            total_occurrences := x.total_occurrences - (od : Int)
            emails_affected := x.emails_affected - (ad : Int) }
        else x)).filter (stat_keep p)).find?
        (fun x => x.suspicious_phrase == p) = none := by
      refine findq_filter_of_removed ?_
      intro x hx hxp
      have hxp' : x.suspicious_phrase = p := by simpa using hxp
      rw [List.mem_map] at hx
      obtain ⟨y, hy, hyx⟩ := hx
      have hyphrase : y.suspicious_phrase = x.suspicious_phrase := by
        rw [← hyx]
        split <;> rfl
      have hyr : y = r := findq_eq_of_mem_key hnd hf y hy (by rw [hyphrase, hxp'])
      have hxdec : x = dec_row r od ad := by
        rw [← hyx, hyr, if_pos (by simp [hrp])]
        rfl
      rw [hxdec]
      exact hkeep
    constructor
    · intro r' hr'
      rw [hnone] at hr'
      exact absurd hr' (by simp)
    · intro _
      obtain ⟨-, h1, h2⟩ := stat_keep_false_iff.mp hkeep
      exact ⟨h1, h2⟩

/-- C8: deleting an existing finding removes exactly that row, leaves
the emails untouched, and applies `occurrence_delta = -1` with
`emails_affected_delta = -1` precisely when the finding was the last
occurrence of its phrase within its email (per-email count 1), `0`
otherwise, retiring the phrase's row when both counters drop to 0 or
below; deleting a missing id returns `false` and changes nothing. -/
theorem C8_delete_finding (db : DB) (h : Reachable db) (rid : Nat) :
    (db.analysis_results.find? (fun r => r.id == rid) = none →
      delete_analysis_result_impl db rid = (db, false)) ∧
    (∀ f, db.analysis_results.find? (fun r => r.id == rid) = some f →
      (delete_analysis_result_impl db rid).2 = true ∧
      (delete_analysis_result_impl db rid).1.flagged_emails = db.flagged_emails ∧
      (delete_analysis_result_impl db rid).1.analysis_results
        = db.analysis_results.filter (fun x => !(x.id == rid)) ∧
      (∀ q, q ≠ f.suspicious_phrase →
        (delete_analysis_result_impl db rid).1.phrase_statistics.find?
            (fun x => x.suspicious_phrase == q)
          = db.phrase_statistics.find? (fun x => x.suspicious_phrase == q)) ∧
      (∀ row, db.phrase_statistics.find?
          (fun x => x.suspicious_phrase == f.suspicious_phrase) = some row →
        (∀ row', (delete_analysis_result_impl db rid).1.phrase_statistics.find?
            (fun x => x.suspicious_phrase == f.suspicious_phrase) = some row' →
          row'.total_occurrences = row.total_occurrences - 1 ∧
          row'.emails_affected = row.emails_affected -
            (if count_in_email db.analysis_results f.suspicious_phrase
                f.flagged_email_id = 1 then 1 else 0)) ∧
        ((delete_analysis_result_impl db rid).1.phrase_statistics.find?
            (fun x => x.suspicious_phrase == f.suspicious_phrase) = none →
          row.total_occurrences - 1 ≤ 0 ∧
          row.emails_affected -
            (if count_in_email db.analysis_results f.suspicious_phrase
                f.flagged_email_id = 1 then 1 else 0) ≤ 0))) := by
  constructor
  · intro hf
    unfold delete_analysis_result_impl
    rw [hf]
  · intro f hf
    have hinv := reachable_inv h
    have hfmem : f ∈ db.analysis_results := List.mem_of_find?_eq_some hf
    have hdel : db.analysis_results.any (fun r => r.id == rid) = true :=
      List.any_eq_true.mpr ⟨f, hfmem,
        @List.find?_some ResultRow (fun r => r.id == rid) f _ hf⟩
    have hstats : (delete_analysis_result_impl db rid).1.phrase_statistics
        = decrement_phrase_statistics db.phrase_statistics f.suspicious_phrase 1
            (if (count_in_email db.analysis_results f.suspicious_phrase
                f.flagged_email_id == 1) = true then 1 else 0) := by
      unfold delete_analysis_result_impl
      rw [hf]
      simp only [hdel, if_true]
    have hone : (if (count_in_email db.analysis_results f.suspicious_phrase
          f.flagged_email_id == 1) = true then (1 : Nat) else 0)
        = (if count_in_email db.analysis_results f.suspicious_phrase
            f.flagged_email_id = 1 then 1 else 0) := by
      by_cases hc : count_in_email db.analysis_results f.suspicious_phrase
          f.flagged_email_id = 1 <;> simp [hc]
    refine ⟨?_, ?_, ?_, ?_, ?_⟩
    · unfold delete_analysis_result_impl
      rw [hf]
      simp only [hdel, if_true]
    · unfold delete_analysis_result_impl
      rw [hf]
      simp only [hdel, if_true]
    · unfold delete_analysis_result_impl
      rw [hf]
      simp only [hdel, if_true]
    · intro q hq
      rw [hstats]
      exact decrement_frame db.phrase_statistics f.suspicious_phrase 1 _ hq
    · intro row hrow
      have heff := @decrement_effect db.phrase_statistics f.suspicious_phrase 1
        (if (count_in_email db.analysis_results f.suspicious_phrase
            f.flagged_email_id == 1) = true then 1 else 0)
        hinv.stat_phrases_nodup row hrow
      rw [hone] at heff
      constructor
      · intro row' hrow'
        rw [hstats, hone] at hrow'
        have := heff.1 row' hrow'
        refine ⟨?_, ?_⟩
        · have h1 := this.1
          push_cast at h1 ⊢
          omega
        · have h2 := this.2
          by_cases hc : count_in_email db.analysis_results f.suspicious_phrase
              f.flagged_email_id = 1 <;> simp [hc] at h2 ⊢ <;> omega
      · intro hnone
        rw [hstats, hone] at hnone
        have := heff.2 hnone
        refine ⟨?_, ?_⟩
        · have h1 := this.1
          push_cast at h1 ⊢
          omega
        · have h2 := this.2
          by_cases hc : count_in_email db.analysis_results f.suspicious_phrase
              f.flagged_email_id = 1 <;> simp [hc] at h2 ⊢ <;> omega

theorem C8_delete_finding_witness :
    delete_analysis_result_impl wit_db1 99 = (wit_db1, false) :=
  (C8_delete_finding wit_db1
    (Reachable.store empty_db wit_pe [wit_f] 5 Reachable.init) 99).1 (by decide)

/-! ### C7 -/

theorem lsp_refl (st : List StatRow) : lsp st st :=
  fun _ r' hr' => ⟨r', hr', rfl⟩

theorem lsp_trans {a b c : List StatRow} (h1 : lsp a b) (h2 : lsp b c) : lsp a c := by
  intro q r' hr'
  obtain ⟨rm, hrm, he2⟩ := h2 q r' hr'
  obtain ⟨r, hr, he1⟩ := h1 q rm hrm
  exact ⟨r, hr, by rw [he2, he1]⟩

theorem decrement_lsp {st : List StatRow}
    (hnd : (st.map (fun r => r.suspicious_phrase)).Nodup) (p : String) (od ad : Nat) :
    lsp st (decrement_phrase_statistics st p od ad) := by
  intro q r' hr'
  by_cases hq : q = p
  · subst hq
    have hr'pred : (r'.suspicious_phrase == q) = true :=
      @List.find?_some StatRow (fun x => x.suspicious_phrase == q) r' _ hr'
    have hr'mem : r' ∈ decrement_phrase_statistics st q od ad :=
      List.mem_of_find?_eq_some hr'
    unfold decrement_phrase_statistics at hr'mem
    rw [List.mem_filter] at hr'mem
    rw [List.mem_map] at hr'mem
    obtain ⟨⟨y, hy, hyx⟩, -⟩ := hr'mem
    have hyphr : y.suspicious_phrase = r'.suspicious_phrase := by
      rw [← hyx]
      split <;> rfl
    have hyq : y.suspicious_phrase = q := by
      rw [hyphr]
      simpa using hr'pred
    have hsome : (st.find? (fun x => x.suspicious_phrase == q)).isSome := by
      rw [List.find?_isSome]
      exact ⟨y, hy, by simp [hyq]⟩
    obtain ⟨r, hr⟩ := Option.isSome_iff_exists.mp hsome
    have hyr : y = r := findq_eq_of_mem_key hnd hr y hy hyq
    refine ⟨r, hr, ?_⟩
    rw [← hyx, hyr]
    split <;> rfl
  · rw [decrement_frame st p od ad hq] at hr'
    exact ⟨r', hr', rfl⟩

theorem fold_decrement_lsp {df af : String → Nat} :
    ∀ (l : List String) (st : List StatRow),
      (st.map (fun r => r.suspicious_phrase)).Nodup →
      lsp st (l.foldl (fun acc q =>
        decrement_phrase_statistics acc q (df q) (af q)) st) := by
  intro l
  induction l with
  | nil => intro st _; exact lsp_refl st
  | cons q l ih =>
    intro st hnd
    rw [List.foldl_cons]
    exact lsp_trans (decrement_lsp hnd q (df q) (af q))
      (ih _ (decrement_phrase_statistics_nodup hnd))

theorem update_frame (st : List StatRow) (p : String) (oldc newc : Nat)
    (inew : Bool) (now : Nat) {q : String} (hq : q ≠ p) :
    (update_phrase_statistics_with_delta st p oldc newc inew now).find?
        (fun x => x.suspicious_phrase == q)
      = st.find? (fun x => x.suspicious_phrase == q) := by
  unfold update_phrase_statistics_with_delta
  have hfq := @su_find_q st p oldc newc inew now q hq
  split
  · rw [findq_filter_of_kept ?hkept, hfq]
    case hkept =>
      intro x hx hxq
      refine stat_keep_true_of_ne ?_
      have : x.suspicious_phrase = q := by simpa using hxq
      rw [this]
      exact hq
  · exact hfq

/-- C7: `last_seen` moves only with genuinely additive ledger deltas:
the upsert stamps `now` exactly when `count_delta > 0` or
`emails_affected_delta > 0` and otherwise leaves every existing row's
timestamp unchanged; the decrement writer never touches it, so
`delete_email`, `delete_finding` and `cleanup` leave the `last_seen` of
every surviving ledger row unchanged. -/
theorem C7_last_seen :
    (∀ (st : List StatRow) (p : String) (oldc newc : Nat) (inew : Bool) (now : Nat),
      ((0 < (newc : Int) - (oldc : Int) ∨
          0 < emails_affected_delta_of inew oldc newc) →
        ∀ r', (update_phrase_statistics_with_delta st p oldc newc inew now).find?
            (fun x => x.suspicious_phrase == p) = some r' →
          r'.last_seen = now) ∧
      ((st.map (fun r => r.suspicious_phrase)).Nodup →
        ¬(0 < (newc : Int) - (oldc : Int) ∨
          0 < emails_affected_delta_of inew oldc newc) →
        ∀ q r r', st.find? (fun x => x.suspicious_phrase == q) = some r →
          (update_phrase_statistics_with_delta st p oldc newc inew now).find?
              (fun x => x.suspicious_phrase == q) = some r' →
          r'.last_seen = r.last_seen)) ∧
    (∀ (st : List StatRow) (p : String) (od ad : Nat),
      (st.map (fun r => r.suspicious_phrase)).Nodup →
      ∀ q r r', st.find? (fun x => x.suspicious_phrase == q) = some r →
        (decrement_phrase_statistics st p od ad).find?
            (fun x => x.suspicious_phrase == q) = some r' →
        r'.last_seen = r.last_seen) ∧
    (∀ (db : DB) (eid : Nat), Reachable db →
      ∀ q r r', db.phrase_statistics.find?
          (fun x => x.suspicious_phrase == q) = some r →
        (delete_flagged_email_impl db eid).1.phrase_statistics.find?
            (fun x => x.suspicious_phrase == q) = some r' →
        r'.last_seen = r.last_seen) ∧
    (∀ (db : DB) (rid : Nat), Reachable db →
      ∀ q r r', db.phrase_statistics.find?
          (fun x => x.suspicious_phrase == q) = some r →
        (delete_analysis_result_impl db rid).1.phrase_statistics.find?
            (fun x => x.suspicious_phrase == q) = some r' →
        r'.last_seen = r.last_seen) ∧
    (∀ (db : DB) (cutoff : Nat), Reachable db →
      ∀ q r r', db.phrase_statistics.find?
          (fun x => x.suspicious_phrase == q) = some r →
        (cleanup_old_data_impl db cutoff).1.phrase_statistics.find?
            (fun x => x.suspicious_phrase == q) = some r' →
        r'.last_seen = r.last_seen) := by
  have hdec : ∀ (st : List StatRow) (p : String) (od ad : Nat),
      (st.map (fun r => r.suspicious_phrase)).Nodup →
      ∀ q r r', st.find? (fun x => x.suspicious_phrase == q) = some r →
        (decrement_phrase_statistics st p od ad).find?
            (fun x => x.suspicious_phrase == q) = some r' →
        r'.last_seen = r.last_seen := by
    intro st p od ad hnd q r r' hr hr'
    obtain ⟨r0, hr0, he⟩ := decrement_lsp hnd p od ad q r' hr'
    rw [hr] at hr0
    rw [he, Option.some.inj hr0]
  refine ⟨?_, hdec, ?_, ?_, ?_⟩
  · intro st p oldc newc inew now
    constructor
    · intro hadd r' hr'
      have hr'pred : (r'.suspicious_phrase == p) = true :=
        @List.find?_some StatRow (fun x => x.suspicious_phrase == p) r' _ hr'
      have hr'mem := List.mem_of_find?_eq_some hr'
      have hmem_up : r' ∈ stat_upsert st p oldc newc inew now := by
        unfold update_phrase_statistics_with_delta at hr'mem
        by_cases hcond : ((newc : Int) - (oldc : Int) < 0 ∨
            emails_affected_delta_of inew oldc newc < 0)
        · rw [if_pos hcond] at hr'mem
          exact List.mem_of_mem_filter hr'mem
        · rw [if_neg hcond] at hr'mem
          exact hr'mem
      unfold stat_upsert at hmem_up
      by_cases hany : (st.any (fun r => r.suspicious_phrase == p)) = true
      · rw [if_pos hany] at hmem_up
        rw [List.mem_map] at hmem_up
        obtain ⟨y, hy, hyx⟩ := hmem_up
        by_cases hyp : (y.suspicious_phrase == p) = true
        · rw [← hyx, if_pos hyp]
          simp only
          rw [if_pos hadd]
        · exfalso
          rw [← hyx, if_neg hyp] at hr'pred
          exact hyp hr'pred
      · rw [if_neg hany] at hmem_up
        rcases List.mem_append.mp hmem_up with hl | hr2
        · exact absurd (List.any_eq_true.mpr ⟨r', hl, hr'pred⟩) hany
        · have : r' = ⟨p, (newc : Int),
              emails_affected_delta_of inew oldc newc, now⟩ := by simpa using hr2
          rw [this]
    · intro hnd hnadd q r r' hr hr'
      by_cases hq : q = p
      · subst hq
        have hfup := @su_find_p st q oldc newc inew now r hr
        have hsu : (su_row r oldc newc inew now).last_seen = r.last_seen := by
          unfold su_row
          simp only
          rw [if_neg hnadd]
        unfold update_phrase_statistics_with_delta at hr'
        by_cases hcond : ((newc : Int) - (oldc : Int) < 0 ∨
            emails_affected_delta_of inew oldc newc < 0)
        · rw [if_pos hcond] at hr'
          cases hkeep : stat_keep q (su_row r oldc newc inew now) with
          | true =>
            rw [findq_filter_of_found hfup hkeep] at hr'
            rw [← Option.some.inj hr']
            exact hsu
          | false =>
            exfalso
            have hnone : ((stat_upsert st q oldc newc inew now).filter
                (stat_keep q)).find? (fun x => x.suspicious_phrase == q) = none := by
              refine findq_filter_of_removed ?_
              intro x hx hxp
              have hxp' : x.suspicious_phrase = q := by simpa using hxp
              rw [su_mem_p hnd hr x hx hxp']
              exact hkeep
            rw [hnone] at hr'
            exact Option.noConfusion hr'
        · rw [if_neg hcond] at hr'
          rw [hfup] at hr'
          rw [← Option.some.inj hr']
          exact hsu
      · rw [update_frame st p oldc newc inew now hq] at hr'
        rw [hr] at hr'
        rw [Option.some.inj hr']
  · intro db eid h q r r' hr hr'
    have hinv := reachable_inv h
    have hstats : (delete_flagged_email_impl db eid).1.phrase_statistics
        = ((counts_by_phrase db.analysis_results eid).map (fun pc => pc.1)).foldl
            (fun st q => decrement_phrase_statistics st q
              (count_in_email db.analysis_results q eid) 1) db.phrase_statistics := by
      unfold delete_flagged_email_impl
      simp only []
      exact foldl_pairs_eq _ _ (fun pc hpc => counts_by_phrase_val pc hpc)
    rw [hstats] at hr'
    obtain ⟨r0, hr0, he⟩ := fold_decrement_lsp _ _ hinv.stat_phrases_nodup q r' hr'
    rw [hr] at hr0
    rw [he, Option.some.inj hr0]
  · intro db rid h q r r' hr hr'
    have hinv := reachable_inv h
    unfold delete_analysis_result_impl at hr'
    cases hf : db.analysis_results.find? (fun x => x.id == rid) with
    | none =>
      rw [hf] at hr'
      simp only at hr'
      rw [hr] at hr'
      rw [Option.some.inj hr']
    | some f =>
      rw [hf] at hr'
      have hdel2 : db.analysis_results.any (fun x => x.id == rid) = true :=
        List.any_eq_true.mpr ⟨f, List.mem_of_find?_eq_some hf,
          @List.find?_some ResultRow (fun x => x.id == rid) f _ hf⟩
      simp only [hdel2, if_true] at hr'
      exact hdec db.phrase_statistics f.suspicious_phrase 1 _
        hinv.stat_phrases_nodup q r r' hr hr'
  · intro db cutoff h q r r' hr hr'
    have hinv := reachable_inv h
    have hstats : (cleanup_old_data_impl db cutoff).1.phrase_statistics
        = ((db.analysis_results.filter
            (owner_is_old db.flagged_emails cutoff)).map
            (fun x => x.suspicious_phrase)).dedup.foldl
            (fun st q => decrement_phrase_statistics st q
              (occurrences_of (db.analysis_results.filter
                (owner_is_old db.flagged_emails cutoff)) q)
              ((((db.analysis_results.filter
                  (owner_is_old db.flagged_emails cutoff)).filter
                    (fun x => x.suspicious_phrase == q)).map
                  (fun x => x.flagged_email_id)).dedup.length)) db.phrase_statistics := by
      unfold cleanup_old_data_impl
      simp only []
      have hvals : ∀ t ∈ cleanup_aggregates db.flagged_emails db.analysis_results
          cutoff,
          t.2.1 = occurrences_of (db.analysis_results.filter
            (owner_is_old db.flagged_emails cutoff)) t.1 ∧
          t.2.2 = (((db.analysis_results.filter
              (owner_is_old db.flagged_emails cutoff)).filter
                (fun x => x.suspicious_phrase == t.1)).map
              (fun x => x.flagged_email_id)).dedup.length := by
        intro t ht
        unfold cleanup_aggregates at ht
        rw [List.mem_map] at ht
        obtain ⟨p, -, hp⟩ := ht
        rw [← hp]
        exact ⟨rfl, rfl⟩
      have hkeq : (cleanup_aggregates db.flagged_emails db.analysis_results
          cutoff).map (fun t => t.1)
          = ((db.analysis_results.filter
              (owner_is_old db.flagged_emails cutoff)).map
              (fun x => x.suspicious_phrase)).dedup := by
        unfold cleanup_aggregates
        rw [List.map_map]
        exact List.map_id _
      have hb := @foldl_triples_eq
        (fun q => occurrences_of (db.analysis_results.filter
          (owner_is_old db.flagged_emails cutoff)) q)
        (fun q => (((db.analysis_results.filter
            (owner_is_old db.flagged_emails cutoff)).filter
              (fun x => x.suspicious_phrase == q)).map
            (fun x => x.flagged_email_id)).dedup.length)
        (cleanup_aggregates db.flagged_emails db.analysis_results cutoff)
        db.phrase_statistics hvals
      rw [hkeq] at hb
      exact hb
    rw [hstats] at hr'
    obtain ⟨r0, hr0, he⟩ := fold_decrement_lsp _ _ hinv.stat_phrases_nodup q r' hr'
    rw [hr] at hr0
    rw [he, Option.some.inj hr0]

/-- C3: storing two email descriptors with identical raw content returns
the same email id both times and leaves `get_email_count` unchanged; the
second store hits the `ON CONFLICT` path (`is_new = false`), the
surviving row carries the first store's id with `total_suspicious_findings`
and `flagged_at` refreshed from the second store, exactly one row ever
carries the fingerprint, and the email's findings are wholly replaced by
the second batch. -/
theorem C3_dedup (db : DB) (pe1 pe2 : ParsedEmail) (ar1 ar2 : List FindingInput)
    (now1 now2 : Nat) (h : Reachable db)
    (hraw : pe2.raw_lines = pe1.raw_lines) :
    (store_flagged_email_impl (store_flagged_email_impl db pe1 ar1 now1).1
        pe2 ar2 now2).2
      = (store_flagged_email_impl db pe1 ar1 now1).2 ∧
    get_flagged_email_count (store_flagged_email_impl
        (store_flagged_email_impl db pe1 ar1 now1).1 pe2 ar2 now2).1
      = get_flagged_email_count (store_flagged_email_impl db pe1 ar1 now1).1 ∧
    (∀ (s fa ta : String) (d : Nat) (c : String),
      (upsert_flagged_email (store_flagged_email_impl db pe1 ar1 now1).1
          (generate_email_hash pe2.raw_lines) s fa ta d ar2.length c now2).2.2
        = false) ∧
    (∃ e₂, (store_flagged_email_impl (store_flagged_email_impl db pe1 ar1 now1).1
          pe2 ar2 now2).1.flagged_emails.find?
          (fun x => x.email_hash == generate_email_hash pe2.raw_lines) = some e₂ ∧
      e₂.id = (store_flagged_email_impl db pe1 ar1 now1).2 ∧
      e₂.total_suspicious_findings = ar2.length ∧
      e₂.flagged_at = now2) ∧
    (store_flagged_email_impl (store_flagged_email_impl db pe1 ar1 now1).1
        pe2 ar2 now2).1.flagged_emails.countP
        (fun e => e.email_hash == generate_email_hash pe2.raw_lines) = 1 ∧
    (store_flagged_email_impl (store_flagged_email_impl db pe1 ar1 now1).1
        pe2 ar2 now2).1.analysis_results.filter
        (fun r => r.flagged_email_id == (store_flagged_email_impl db pe1 ar1 now1).2)
      = rendered_rows (store_flagged_email_impl db pe1 ar1 now1).2 ar2
          (store_flagged_email_impl db pe1 ar1 now1).1.next_result_id now2 := by
  have h1 : Reachable (store_flagged_email_impl db pe1 ar1 now1).1 :=
    Reachable.store db pe1 ar1 now1 h
  have h2 : Reachable (store_flagged_email_impl
      (store_flagged_email_impl db pe1 ar1 now1).1 pe2 ar2 now2).1 :=
    Reachable.store _ pe2 ar2 now2 h1
  obtain ⟨e₁, hfind1, hid1, hhash1⟩ := store_finds_hash db pe1 ar1 now1
  have hh : generate_email_hash pe2.raw_lines = generate_email_hash pe1.raw_lines := by
    unfold generate_email_hash
    rw [hraw]
  have hfind2 : (store_flagged_email_impl db pe1 ar1 now1).1.flagged_emails.find?
      (fun x => x.email_hash == generate_email_hash pe2.raw_lines) = some e₁ := by
    rw [hh]
    exact hfind1
  obtain ⟨hid2, hfe2, hres2⟩ := store_on_existing hfind2
  have hpred : ∀ x : EmailRow,
      ((if x.email_hash == generate_email_hash pe2.raw_lines then
          { x with total_suspicious_findings := ar2.length, flagged_at := now2 }
        else x).email_hash == generate_email_hash pe2.raw_lines)
        = (x.email_hash == generate_email_hash pe2.raw_lines) := by
    intro x
    split <;> rfl
  have he1p : (e₁.email_hash == generate_email_hash pe2.raw_lines) = true := by
    rw [hhash1, hh]
    simp
  have hfind3 : (store_flagged_email_impl (store_flagged_email_impl db pe1 ar1 now1).1
        pe2 ar2 now2).1.flagged_emails.find?
        (fun x => x.email_hash == generate_email_hash pe2.raw_lines)
      = some { e₁ with total_suspicious_findings := ar2.length, flagged_at := now2 } := by
    rw [hfe2, findq_map_comm hpred, hfind2]
    simp only [Option.map]
    rw [if_pos he1p]
  refine ⟨hid2.trans hid1, ?_, ?_, ?_, ?_, ?_⟩
  · unfold get_flagged_email_count
    rw [hfe2, List.length_map]
  · intro s fa ta d c
    rw [upsert_found hfind2]
  · exact ⟨{ e₁ with total_suspicious_findings := ar2.length, flagged_at := now2 },
      hfind3, hid1, rfl, rfl⟩
  · have hinv2 := reachable_inv h2
    refine countP_eq_one_of_nodup hinv2.email_hashes_nodup ?_
    rw [List.mem_map]
    exact ⟨{ e₁ with total_suspicious_findings := ar2.length, flagged_at := now2 },
      List.mem_of_find?_eq_some hfind3, by simpa using he1p⟩
  · rw [← hid1, hres2, List.filter_append]
    have h0 : ((store_flagged_email_impl db pe1 ar1 now1).1.analysis_results.filter
        (fun r => !(r.flagged_email_id == e₁.id))).filter
        (fun r => r.flagged_email_id == e₁.id) = [] := by
      rw [List.filter_eq_nil_iff]
      intro r hr hc
      rw [List.mem_filter] at hr
      rw [hc] at hr
      exact Bool.noConfusion hr.2
    have hall : ∀ r ∈ rendered_rows e₁.id ar2
        (store_flagged_email_impl db pe1 ar1 now1).1.next_result_id now2,
        (r.flagged_email_id == e₁.id) = true := by
      intro r hr
      have := (rendered_mem e₁.id ar2 now2 _ r hr).2.2.1
      simp [this]
    rw [h0, List.nil_append, List.filter_eq_self.mpr hall]

theorem C3_dedup_witness :
    (store_flagged_email_impl (store_flagged_email_impl empty_db wit_pe [wit_f] 5).1
        wit_pe [wit_f] 9).2 = 1 ∧
    get_flagged_email_count (store_flagged_email_impl
        (store_flagged_email_impl empty_db wit_pe [wit_f] 5).1 wit_pe [wit_f] 9).1
      = 1 := by
  have h := C3_dedup empty_db wit_pe wit_pe [wit_f] [wit_f] 5 9 Reachable.init rfl
  refine ⟨?_, ?_⟩
  · rw [h.1]
    decide
  · rw [h.2.1]
    decide

/-- C6: `cleanup(cutoff)` aggregates, per phrase of the findings owned by
emails older than the cutoff, the total occurrence count and the
distinct-old-email count — computed over the pre-deletion state; it then
removes exactly those findings, applies the aggregated decrements to the
ledger by folding the shared decrement writer, removes exactly the old
emails, and returns the two deletion counts; the committed ledger is again
exact for the surviving data. -/
theorem C6_cleanup (db : DB) (cutoff : Nat) (h : Reachable db) :
    (cleanup_old_data_impl db cutoff).2.emails_deleted
      = db.flagged_emails.countP (fun e => decide (e.flagged_at < cutoff)) ∧
    (cleanup_old_data_impl db cutoff).2.analysis_results_deleted
      = db.analysis_results.countP (owner_is_old db.flagged_emails cutoff) ∧
    (cleanup_old_data_impl db cutoff).1.flagged_emails
      = db.flagged_emails.filter (fun e => !decide (e.flagged_at < cutoff)) ∧
    (cleanup_old_data_impl db cutoff).1.analysis_results
      = db.analysis_results.filter
          (fun r => !owner_is_old db.flagged_emails cutoff r) ∧
    (∀ t ∈ cleanup_aggregates db.flagged_emails db.analysis_results cutoff,
      t.2.1 = occurrences_of (db.analysis_results.filter
          (owner_is_old db.flagged_emails cutoff)) t.1 ∧
      t.2.2 = db.flagged_emails.countP (fun e =>
          decide (e.flagged_at < cutoff) &&
          decide (0 < count_in_email db.analysis_results t.1 e.id))) ∧
    (cleanup_aggregates db.flagged_emails db.analysis_results cutoff).map
        (fun t => t.1)
      = ((db.analysis_results.filter
          (owner_is_old db.flagged_emails cutoff)).map
          (fun r => r.suspicious_phrase)).dedup ∧
    (cleanup_old_data_impl db cutoff).1.phrase_statistics
      = (cleanup_aggregates db.flagged_emails db.analysis_results cutoff).foldl
          (fun st (t : String × Nat × Nat) =>
            decrement_phrase_statistics st t.1 t.2.1 t.2.2)
          db.phrase_statistics ∧
    (∀ p, stat_ok (cleanup_old_data_impl db cutoff).1.phrase_statistics p
      (occurrences_of (cleanup_old_data_impl db cutoff).1.analysis_results p)
      (emails_containing (cleanup_old_data_impl db cutoff).1.flagged_emails
        (cleanup_old_data_impl db cutoff).1.analysis_results p)) := by
  have hinv := reachable_inv h
  refine ⟨rfl, rfl, rfl, rfl, ?_, ?_, rfl,
    (inv_cleanup hinv cutoff).ledger⟩
  · intro t ht
    unfold cleanup_aggregates at ht
    rw [List.mem_map] at ht
    obtain ⟨p, -, hp⟩ := ht
    subst hp
    refine ⟨rfl, ?_⟩
    exact @cleanup_af db.flagged_emails db.analysis_results cutoff
      hinv.email_ids_nodup hinv.owners_exist p
  · unfold cleanup_aggregates
    rw [List.map_map]
    exact List.map_id _

theorem C6_cleanup_witness :
    (cleanup_old_data_impl wit_db1 10).2.emails_deleted = 1 ∧
    (cleanup_old_data_impl wit_db1 10).2.analysis_results_deleted = 1 := by
  have h := C6_cleanup wit_db1 10
    (Reachable.store empty_db wit_pe [wit_f] 5 Reachable.init)
  refine ⟨?_, ?_⟩
  · rw [h.1]; decide
  · rw [h.2.1]; decide

theorem C7_last_seen_witness :
    (⟨"u", (2 : Int), (2 : Int), 7⟩ : StatRow).last_seen
      = (⟨"u", (3 : Int), (2 : Int), 7⟩ : StatRow).last_seen :=
  C7_last_seen.2.1 [⟨"u", 3, 2, 7⟩] "u" 1 0 (by decide) "u"
    ⟨"u", 3, 2, 7⟩ ⟨"u", 2, 2, 7⟩ (by decide) (by decide)

/-! ### C9 -/

/-- C9 (counterexample): a connection lost mid-store does NOT surface as
a `ConnectionError` — the impl's except clause turns every failure,
including the driver's `OperationalError`, into a plain wrapped
`Exception("Failed to store flagged email: ...")`, and
`_execute_in_transaction` re-raises that unchanged; no code path raises
`ConnectionError`. -/
theorem C9_counterexample :
    (store_flagged_email_faulty
        (PyError.operational_error "server closed the connection unexpectedly")
        empty_db).1
      = Except.error (PyError.generic_exception
          "Failed to store flagged email: server closed the connection unexpectedly")
    ∧ (∀ msg, PyError.generic_exception msg ≠ PyError.connection_error) := by
  refine ⟨rfl, ?_⟩
  intro msg hc
  exact PyError.noConfusion hc

/-- C9 (amended): a connection lost mid-store surfaces to the caller as
the re-raised wrapped generic `Exception` (never a `ConnectionError`
and never silent data loss: the pre-call state is returned untouched),
and the next call's `_get_cursor` reconnects against a fresh connection
whenever the stored connection is absent or closed, while keeping a
live connection. -/
theorem C9_reconnect (db : DB) (fault : PyError) (env_ok : Bool) (err : String) :
    (store_flagged_email_faulty fault db).1
      = Except.error (PyError.generic_exception
          ("Failed to store flagged email: " ++ describe fault)) ∧
    (store_flagged_email_faulty fault db).2 = db ∧
    (store_flagged_email_faulty fault db).1
      ≠ Except.error PyError.connection_error ∧
    (∀ c : Option Connection,
      (c = none ∨ ∃ cc, c = some cc ∧ cc.closed = true) →
      env_ok = true → get_cursor c env_ok err = Except.ok ⟨false⟩) ∧
    (∀ cc : Connection, cc.closed = false →
      get_cursor (some cc) env_ok err = Except.ok cc) := by
  refine ⟨rfl, rfl, ?_, ?_, ?_⟩
  · intro hc
    have := Except.error.inj hc
    exact PyError.noConfusion this
  · intro c hc henv
    rcases hc with hn | ⟨cc, hcc, hclosed⟩
    · rw [hn]
      simp [get_cursor, connect_db, henv]
    · rw [hcc]
      simp [get_cursor, connect_db, hclosed, henv]
  · intro cc hlive
    simp [get_cursor, hlive]

theorem C9_reconnect_witness :
    get_cursor (some ⟨true⟩) true "e" = Except.ok ⟨false⟩ ∧
    (store_flagged_email_faulty (PyError.operational_error "lost") empty_db).2
      = empty_db :=
  ⟨(C9_reconnect empty_db (PyError.operational_error "lost") true "e").2.2.2.1
      (some ⟨true⟩) (Or.inr ⟨⟨true⟩, rfl, rfl⟩) rfl,
    (C9_reconnect empty_db (PyError.operational_error "lost") true "e").2.1⟩

end PhishDetect
